import Mathlib

/-!
Verification of the arena-backed binary search tree (`src/arena.rs`, `src/lib.rs`).

The Rust code is shallowly embedded:
* `Arena` mirrors `arena::Arena` (a `Vec<Option<Node>>` of slots plus a free
  list; the free list is modelled with its stack top at the head of the list,
  so Rust's `Vec::push`/`Vec::pop` on `available` become `cons`/head).
* Fatal panics (`dead node`, out-of-bounds vector indexing, `Broken tree!`)
  are modelled as `Except` errors, and the unbounded `loop`s of the source are
  given explicit fuel (`Err.fuelOut` marks fuel exhaustion, a state the Rust
  code would reach only by looping forever).
* `Node`, `traverse_towards`, `fall_min`, `fall_max`, `climb`,
  `BinarySearchTree.{insert, remove, remove_node, rebuild_tree}` and the
  in-order iterator follow the source line by line; every `Vec` index
  operation checks the bound first, exactly as Rust's `Vec` indexing does.
-/

/-- The ways an operation of the embedded program can fail fatally:
`dead i` is the "Requested (mutable) access to a dead node" panic of
`Arena::view`/`Arena::modify`, `oob i` is Rust's out-of-bounds `Vec` indexing
panic, `broken` is the "Broken tree!" panic of `remove_node`, and `fuelOut`
marks exhaustion of the fuel given to one of the source's unbounded loops. -/
inductive Err where
  | dead (i : ℕ)
  | oob (i : ℕ)
  | broken
  | fuelOut
deriving DecidableEq

/-- `Content` from `lib.rs`: one key/payload pair. -/
structure Content (K P : Type) where
  key : K
  payload : P
deriving DecidableEq

/-- `Node` from `lib.rs`: content plus optional parent/left/right slot indices. -/
structure Node (K P : Type) where
  content : Content K P
  parent : Option ℕ
  left_child : Option ℕ
  right_child : Option ℕ
deriving DecidableEq

/-- `Arena<Node>` from `arena.rs`: the slot vector and the free list
(`available`, stack top at the head). -/
structure Arena (α : Type) where
  nodes : List (Option α)
  available : List ℕ
deriving DecidableEq

namespace Arena

/-- `Arena::new`. -/
def new (α : Type) : Arena α := ⟨[], []⟩

/-- `Arena::alloc`.  When the free list is non-empty the source executes
`self.nodes.insert(index, Some(new_node))`, i.e. Rust's shifting
`Vec::insert`, which is `List.insertIdx` here; otherwise it pushes at the
end. -/
def alloc (a : Arena α) (new_node : α) : Arena α × ℕ :=
  match a.available with
  | index :: rest => (⟨a.nodes.insertIdx index (some new_node), rest⟩, index)
  | [] => (⟨a.nodes ++ [some new_node], []⟩, a.nodes.length)

/-- `Arena::remove`: `&mut self.nodes[index]` panics when out of bounds;
an occupied slot is cleared and its index pushed on the free list. -/
def remove (a : Arena α) (index : ℕ) : Except Err (Arena α × Bool) :=
  if h : index < a.nodes.length then
    match a.nodes[index] with
    | some _ => .ok (⟨a.nodes.set index none, index :: a.available⟩, true)
    | none => .ok (a, false)
  else .error (.oob index)

/-- `Arena::view`: panics out-of-bounds on the vector index, then panics
"dead node" when the slot is empty. -/
def view (a : Arena α) (index : ℕ) : Except Err α :=
  if h : index < a.nodes.length then
    match a.nodes[index] with
    | some node => .ok node
    | none => .error (.dead index)
  else .error (.oob index)

/-- `Arena::modify`: the returned `&mut Node` is modelled by applying the
caller's update `f` to the slot's content. -/
def modify (a : Arena α) (index : ℕ) (f : α → α) : Except Err (Arena α) :=
  if h : index < a.nodes.length then
    match a.nodes[index] with
    | some node => .ok ⟨a.nodes.set index (some (f node)), a.available⟩
    | none => .error (.dead index)
  else .error (.oob index)

end Arena

/-- `Storage` alias from `lib.rs`. -/
abbrev Storage (K P : Type) := Arena (Node K P)

/-- The four-way traversal signal from `lib.rs`. -/
inductive TraverseTowards where
  | Next (i : ℕ)
  | InsertLeft
  | InsertRight
  | Current
deriving DecidableEq

variable {K P : Type} [LinearOrder K]

namespace Node

/-- `Node::traverse_towards`: compare the node's key against the query. -/
def traverse_towards (n : Node K P) (search : K) : TraverseTowards :=
  if n.content.key < search then
    match n.right_child with
    | some right => .Next right
    | none => .InsertRight
  else if search < n.content.key then
    match n.left_child with
    | some left => .Next left
    | none => .InsertLeft
  else .Current

/-- `Node::fall_min`: follow left-child links; the source's `loop` carries
explicit fuel. -/
def fall_min (storage : Storage K P) : ℕ → ℕ → Except Err ℕ
  | 0, _ => .error .fuelOut
  | fuel + 1, current => do
    let current_node ← storage.view current
    match current_node.left_child with
    | some left => fall_min storage fuel left
    | none => .ok current

/-- `Node::fall_max`: follow right-child links. -/
def fall_max (storage : Storage K P) : ℕ → ℕ → Except Err ℕ
  | 0, _ => .error .fuelOut
  | fuel + 1, current => do
    let current_node ← storage.view current
    match current_node.right_child with
    | some right => fall_max storage fuel right
    | none => .ok current

/-- `Node::climb`: ascend parent links, skipping every parent whose right
child is the node just climbed from. -/
def climb (storage : Storage K P) : ℕ → ℕ → Except Err (Option ℕ)
  | 0, _ => .error .fuelOut
  | fuel + 1, from_node_index => do
    let from_node ← storage.view from_node_index
    match from_node.parent with
    | some to_node_index => do
      let to_node ← storage.view to_node_index
      match to_node.right_child with
      | some right_child_index =>
        if right_child_index = from_node_index then climb storage fuel to_node_index
        else .ok (some to_node_index)
      | none => .ok (some to_node_index)
    | none => .ok none

/-- `Node::new`: allocate a fresh childless node. -/
def new (storage : Storage K P) (key : K) (payload : P) (parent : Option ℕ) :
    Storage K P × ℕ :=
  storage.alloc ⟨⟨key, payload⟩, parent, none, none⟩

end Node

/-- `BinarySearchTree` from `lib.rs`: the storage arena plus the optional
root index. -/
structure BinarySearchTree (K P : Type) where
  storage : Storage K P
  root : Option ℕ
deriving DecidableEq

namespace BinarySearchTree

/-- `BinarySearchTree::new`. -/
def new (K P : Type) : BinarySearchTree K P := ⟨Arena.new _, none⟩

/-- The walking `loop` of `BinarySearchTree::insert`; the storage is only
read while walking, and written once at the exit point, exactly as in the
source.  Returns the updated storage, the `inserted` flag, and the index the
returned `BSTIterator` points at. -/
def insertLoop (storage : Storage K P) (key : K) (payload : P) :
    ℕ → ℕ → Except Err (Storage K P × Bool × Option ℕ)
  | 0, _ => .error .fuelOut
  | fuel + 1, node => do
    let nd ← storage.view node
    match nd.traverse_towards key with
    | .Next n => insertLoop storage key payload fuel n
    | .InsertLeft =>
      let (st1, newIdx) := Node.new storage key payload (some node)
      do
        let st2 ← st1.modify node fun n => { n with left_child := some newIdx }
        .ok (st2, true, some newIdx)
    | .InsertRight =>
      let (st1, newIdx) := Node.new storage key payload (some node)
      do
        let st2 ← st1.modify node fun n => { n with right_child := some newIdx }
        .ok (st2, true, some newIdx)
    | .Current => .ok (storage, false, some node)

/-- `BinarySearchTree::insert`.  The fuel `nodes.length + 1` strictly
exceeds the number of occupied slots, hence the length of any search path in
a well-formed tree. -/
def insert (b : BinarySearchTree K P) (key : K) (payload : P) :
    Except Err (BinarySearchTree K P × Bool × Option ℕ) :=
  match b.root with
  | some root => do
    let (st, inserted, it) ← insertLoop b.storage key payload (b.storage.nodes.length + 1) root
    .ok (⟨st, b.root⟩, inserted, it)
  | none =>
    let (st1, newIdx) := Node.new b.storage key payload none
    .ok (⟨st1, some newIdx⟩, true, some newIdx)

/-- `BinarySearchTree::rebuild_tree`; `fall_max` runs with fuel exceeding
the slot count. -/
def rebuild_tree (storage : Storage K P)
    (check_left check_right new_parent : Option ℕ) :
    Except Err (Storage K P × Option ℕ) :=
  match check_left with
  | some left => do
    let st1 ← storage.modify left fun n => { n with parent := new_parent }
    match check_right with
    | some right => do
      let left_max_index ← Node.fall_max st1 (st1.nodes.length + 1) left
      let st2 ← st1.modify left_max_index fun n => { n with right_child := some right }
      let st3 ← st2.modify right fun n => { n with parent := some left_max_index }
      .ok (st3, some left)
    | none => .ok (st1, some left)
  | none =>
    match check_right with
    | some right => do
      let st1 ← storage.modify right fun n => { n with parent := new_parent }
      .ok (st1, some right)
    | none => .ok (storage, none)

/-- `BinarySearchTree::remove_node`: capture links, free the slot, splice,
then patch the parent's child link (or the root), panicking `Broken tree!`
when neither link matches. -/
def remove_node (b : BinarySearchTree K P) (node_index : ℕ) :
    Except Err (BinarySearchTree K P) := do
  let to_remove ← b.storage.view node_index
  let check_parent := to_remove.parent
  let check_left := to_remove.left_child
  let check_right := to_remove.right_child
  let (st1, _) ← b.storage.remove node_index
  match check_parent with
  | some parent_index => do
    let (st2, new_child) ← rebuild_tree st1 check_left check_right (some parent_index)
    let parent_node ← st2.view parent_index
    if parent_node.left_child = some node_index then
      let st3 ← st2.modify parent_index fun n => { n with left_child := new_child }
      .ok ⟨st3, b.root⟩
    else if parent_node.right_child = some node_index then
      let st3 ← st2.modify parent_index fun n => { n with right_child := new_child }
      .ok ⟨st3, b.root⟩
    else .error .broken
  | none => do
    let (st2, new_child) ← rebuild_tree st1 check_left check_right none
    .ok ⟨st2, new_child⟩

/-- The walking `loop` of `BinarySearchTree::remove`. -/
def removeLoop (b : BinarySearchTree K P) (query : K) :
    ℕ → ℕ → Except Err (BinarySearchTree K P × Bool)
  | 0, _ => .error .fuelOut
  | fuel + 1, node => do
    let nd ← b.storage.view node
    match nd.traverse_towards query with
    | .Next n => removeLoop b query fuel n
    | .Current => do
      let b' ← b.remove_node node
      .ok (b', true)
    | .InsertLeft => .ok (b, false)
    | .InsertRight => .ok (b, false)

/-- `BinarySearchTree::remove`. -/
def remove (b : BinarySearchTree K P) (query : K) :
    Except Err (BinarySearchTree K P × Bool) :=
  match b.root with
  | some root => removeLoop b query (b.storage.nodes.length + 1) root
  | none => .ok (b, false)

end BinarySearchTree

/-- One advance step of `BSTIterator::next`: `fall_min` into a right child
if there is one, otherwise `climb`. -/
def iterNext (storage : Storage K P) (innerFuel : ℕ) (i : ℕ) :
    Except Err (Option ℕ) := do
  let current_node ← storage.view i
  match current_node.right_child with
  | some right => do
    let m ← Node.fall_min storage innerFuel right
    .ok (some m)
  | none => Node.climb storage innerFuel i

/-- Driving `BSTIterator::next` to exhaustion from a given position,
collecting the yielded `(key, payload)` pairs.  `innerFuel` feeds the
`fall_min`/`climb` loops of each step, the second argument bounds the number
of yields. -/
def iterList (storage : Storage K P) (innerFuel : ℕ) :
    ℕ → Option ℕ → Except Err (List (K × P))
  | _, none => .ok []
  | 0, some _ => .error .fuelOut
  | fuel + 1, some i => do
    let nd ← storage.view i
    let nxt ← iterNext storage innerFuel i
    let rest ← iterList storage innerFuel fuel nxt
    .ok ((nd.content.key, nd.content.payload) :: rest)

/-- `BSTIterator::view` applied to an iterator position. -/
def iterView (storage : Storage K P) (pos : Option ℕ) :
    Except Err (Option (Content K P)) :=
  match pos with
  | some node_index => do
    let nd ← storage.view node_index
    .ok (some nd.content)
  | none => .ok none

/-- `BinarySearchTree::iter` followed by collecting the whole iterator:
start at `fall_min(root)` and step until `None`. -/
def BinarySearchTree.iterate (b : BinarySearchTree K P) :
    Except Err (List (K × P)) :=
  match b.root with
  | some root => do
    let m ← Node.fall_min b.storage (b.storage.nodes.length + 1) root
    iterList b.storage (b.storage.nodes.length + 1) (b.storage.nodes.length + 1) (some m)
  | none => .ok []

/-!
## Abstract model

`ATree` is the inductive binary search tree that a well-formed arena state
represents; each abstract node remembers the arena slot index it lives in.
`Represents` ties an arena state to the abstract tree hanging from a given
root index with a given parent back-pointer.
-/

/-- Abstract indexed binary tree. -/
inductive ATree (K P : Type) where
  | leaf
  | node (l : ATree K P) (idx : ℕ) (key : K) (payload : P) (r : ATree K P)
deriving DecidableEq

namespace ATree

/-- The arena index of the root node, if any. -/
def rootIdx : ATree K P → Option ℕ
  | .leaf => none
  | .node _ i _ _ _ => some i

/-- In-order list of the arena indices. -/
def idxs : ATree K P → List ℕ
  | .leaf => []
  | .node l i _ _ r => l.idxs ++ i :: r.idxs

/-- In-order list of keys. -/
def keys : ATree K P → List K
  | .leaf => []
  | .node l _ k _ r => l.keys ++ k :: r.keys

/-- In-order list of `(key, payload)` pairs — what full iteration yields. -/
def inorder : ATree K P → List (K × P)
  | .leaf => []
  | .node l _ k p r => l.inorder ++ (k, p) :: r.inorder

/-- Number of nodes. -/
def size : ATree K P → ℕ
  | .leaf => 0
  | .node l _ _ _ r => l.size + r.size + 1

/-- Index of the leftmost node (`fall_min` target); junk `0` on `leaf`. -/
def minIdx : ATree K P → ℕ
  | .leaf => 0
  | .node .leaf i _ _ _ => i
  | .node (.node ll li lk lp lr) _ _ _ _ => minIdx (.node ll li lk lp lr)

/-- Index of the rightmost node (`fall_max` target); junk `0` on `leaf`. -/
def maxIdx : ATree K P → ℕ
  | .leaf => 0
  | .node _ i _ _ .leaf => i
  | .node _ _ _ _ (.node rl ri rk rp rr) => maxIdx (.node rl ri rk rp rr)

/-- The binary-search-tree ordering invariant. -/
inductive IsBST : ATree K P → Prop
  | leaf : IsBST .leaf
  | node {l : ATree K P} {i : ℕ} {k : K} {p : P} {r : ATree K P} :
      (∀ x ∈ l.keys, x < k) → (∀ x ∈ r.keys, k < x) →
      IsBST l → IsBST r → IsBST (.node l i k p r)

/-- Abstract insertion, mirroring the comparison order of
`traverse_towards` (node key `<` query first); `newIdx` is the arena index
the new node is given. -/
def insertA (t : ATree K P) (newIdx : ℕ) (k : K) (p : P) : ATree K P :=
  match t with
  | .leaf => .node .leaf newIdx k p .leaf
  | .node l i k' p' r =>
    if k' < k then .node l i k' p' (r.insertA newIdx k p)
    else if k < k' then .node (l.insertA newIdx k p) i k' p' r
    else t

/-- Attach `r` as the right child of the rightmost node of `l`
(`rebuild_tree`'s splice); when `l` is a leaf the result is just `r`. -/
def attachRightmost : ATree K P → ATree K P → ATree K P
  | .leaf, r => r
  | .node a j k p b, r => .node a j k p (attachRightmost b r)

/-- Abstract removal, mirroring `remove`'s walk and `rebuild_tree`'s
splice. -/
def removeA (t : ATree K P) (q : K) : ATree K P :=
  match t with
  | .leaf => .leaf
  | .node l i k p r =>
    if k < q then .node l i k p (r.removeA q)
    else if q < k then .node (l.removeA q) i k p r
    else attachRightmost l r

/-- Arena index of the node holding key `k` (junk `0` when absent). -/
def findIdx (t : ATree K P) (k : K) : ℕ :=
  match t with
  | .leaf => 0
  | .node l i k' _ r =>
    if k' < k then r.findIdx k
    else if k < k' then l.findIdx k
    else i

end ATree

/-- Slot `i` of the arena is occupied by exactly the node `nd`. -/
def slotIs (st : Storage K P) (i : ℕ) (nd : Node K P) : Prop :=
  st.nodes[i]? = some (some nd)

/-- `Represents st parent ro t`: the slot graph of `st` hanging from the
optional index `ro`, whose parent back-pointer is `parent`, is exactly the
abstract tree `t`. -/
inductive Represents (st : Storage K P) : Option ℕ → Option ℕ → ATree K P → Prop
  | leaf (parent : Option ℕ) : Represents st parent none .leaf
  | node (parent : Option ℕ) (i : ℕ) (k : K) (p : P) (l r : ATree K P) :
      slotIs st i ⟨⟨k, p⟩, parent, l.rootIdx, r.rootIdx⟩ →
      Represents st (some i) l.rootIdx l →
      Represents st (some i) r.rootIdx r →
      Represents st parent (some i) (.node l i k p r)

/-- A well-formed tree state: the arena represents the abstract tree `t`
from the stored root, with pairwise-distinct slot indices, and `t` satisfies
the ordering invariant. -/
structure WF (b : BinarySearchTree K P) (t : ATree K P) : Prop where
  repr : Represents b.storage none b.root t
  nodup : t.idxs.Nodup
  bst : t.IsBST

/-- Folding a list of `insert` calls, as a client would. -/
def insertAll (b : BinarySearchTree K P) :
    List (K × P) → Except Err (BinarySearchTree K P)
  | [] => .ok b
  | (k, p) :: rest => do
    let (b', _, _) ← b.insert k p
    insertAll b' rest

/-- How `remove_node` patches the parent's child link: the first of
left/right that points at the removed node is redirected (left checked
first, exactly as in the source). -/
def patchChild (pn : Node K P) (old : ℕ) (newc : Option ℕ) : Node K P :=
  if pn.left_child = some old then { pn with left_child := newc }
  else if pn.right_child = some old then { pn with right_child := newc }
  else pn

/-- Concrete reachable arena used to exhibit `Arena::alloc`'s behaviour on
a non-empty free list: allocate twice, then free slot 0. -/
def c1Arena : Except Err (Arena ℤ) := do
  let (a1, _) := (Arena.new ℤ).alloc 9
  let (a2, _) := a1.alloc 7
  let (a3, _) ← a2.remove 0
  .ok a3

/-- Insert one key, remove it, insert another: does the arena reuse the
freed slot? -/
def c2Run : Except Err (BinarySearchTree ℤ ℤ) := do
  let (b1, _, _) ← (BinarySearchTree.new ℤ ℤ).insert 1 10
  let (b2, _) ← b1.remove 1
  let (b3, _, _) ← b2.insert 2 20
  .ok b3

/-- Insert 2, 1, 3, remove 1, re-insert 1, then iterate in order — a plain
sequence of public operations on an initially empty tree. -/
def c3Run : Except Err (List (ℤ × ℤ)) := do
  let (b1, _, _) ← (BinarySearchTree.new ℤ ℤ).insert 2 0
  let (b2, _, _) ← b1.insert 1 0
  let (b3, _, _) ← b2.insert 3 0
  let (b4, _) ← b3.remove 1
  let (b5, _, _) ← b4.insert 1 5
  b5.iterate

/-- Insert 2, 1, 3, remove 1 (a reachable state without key 10), then
insert key 10. -/
def c8Run : Except Err (BinarySearchTree ℤ ℤ × Bool × Option ℕ) := do
  let (b1, _, _) ← (BinarySearchTree.new ℤ ℤ).insert 2 0
  let (b2, _, _) ← b1.insert 1 0
  let (b3, _, _) ← b2.insert 3 0
  let (b4, _) ← b3.remove 1
  b4.insert 10 7

/-- A concrete well-formed three-node tree (keys 2, 1, 3 at slots 0, 1, 2),
the state reached by inserting (2,20), (1,11), (3,13) into an empty tree. -/
def bW : BinarySearchTree ℤ ℤ :=
  ⟨⟨[some ⟨⟨2, 20⟩, none, some 1, some 2⟩,
     some ⟨⟨1, 11⟩, some 0, none, none⟩,
     some ⟨⟨3, 13⟩, some 0, none, none⟩], []⟩, some 0⟩

/-- The abstract tree `bW` represents. -/
def tW : ATree ℤ ℤ :=
  .node (.node .leaf 1 1 11 .leaf) 0 2 20 (.node .leaf 2 3 13 .leaf)

/-- The left subtree of `tW` (rooted at slot 1). -/
def lW : ATree ℤ ℤ := .node .leaf 1 1 11 .leaf

/-- The right subtree of `tW` (rooted at slot 2). -/
def rW : ATree ℤ ℤ := .node .leaf 2 3 13 .leaf

/-!
## Basic lemmas about the embedding
-/

@[simp] theorem bind_ok_eq {α β : Type} (a : α) (f : α → Except Err β) :
    (Except.ok a >>= f) = f a := rfl

@[simp] theorem bind_error_eq {α β : Type} (e : Err) (f : α → Except Err β) :
    ((Except.error e : Except Err α) >>= f) = .error e := rfl

theorem slotIs_lt {st : Storage K P} {i : ℕ} {nd : Node K P}
    (h : slotIs st i nd) : i < st.nodes.length := by
  by_contra hn
  push_neg at hn
  rw [slotIs, List.getElem?_eq_none hn] at h
  cases h

theorem view_of_slotIs {st : Storage K P} {i : ℕ} {nd : Node K P}
    (h : slotIs st i nd) : st.view i = .ok nd := by
  have hlen := slotIs_lt h
  rw [slotIs, List.getElem?_eq_getElem hlen] at h
  have hv : st.nodes[i] = some nd := Option.some.inj h
  simp [Arena.view, hlen, hv]

theorem modify_of_slotIs {st : Storage K P} {i : ℕ} {nd : Node K P}
    (h : slotIs st i nd) (f : Node K P → Node K P) :
    st.modify i f = .ok ⟨st.nodes.set i (some (f nd)), st.available⟩ := by
  have hlen := slotIs_lt h
  rw [slotIs, List.getElem?_eq_getElem hlen] at h
  have hv : st.nodes[i] = some nd := Option.some.inj h
  simp [Arena.modify, hlen, hv]

theorem remove_of_slotIs {st : Storage K P} {i : ℕ} {nd : Node K P}
    (h : slotIs st i nd) :
    st.remove i = .ok (⟨st.nodes.set i none, i :: st.available⟩, true) := by
  have hlen := slotIs_lt h
  rw [slotIs, List.getElem?_eq_getElem hlen] at h
  have hv : st.nodes[i] = some nd := Option.some.inj h
  simp [Arena.remove, hlen, hv]

theorem slotIs_set_self {st : Storage K P} {i : ℕ} (nd : Node K P)
    (hlen : i < st.nodes.length) :
    slotIs ⟨st.nodes.set i (some nd), st.available⟩ i nd := by
  simp [slotIs, List.getElem?_set_self hlen]

/-- A list of pairwise-distinct naturals all below `n` has length at most
`n`. -/
theorem nodup_length_le {l : List ℕ} {n : ℕ} (hnd : l.Nodup)
    (hlt : ∀ x ∈ l, x < n) : l.length ≤ n := by
  classical
  have hsub : l.toFinset ⊆ Finset.range n := by
    intro x hx
    simp only [List.mem_toFinset] at hx
    simpa using hlt x hx
  have := Finset.card_le_card hsub
  rwa [List.toFinset_card_of_nodup hnd, Finset.card_range] at this

namespace Represents

theorem rootIdx_eq {st : Storage K P} {par ro : Option ℕ} {t : ATree K P}
    (h : Represents st par ro t) : ro = t.rootIdx := by
  cases h <;> rfl

theorem idx_lt_length {st : Storage K P} {par ro : Option ℕ} {t : ATree K P}
    (h : Represents st par ro t) : ∀ j ∈ t.idxs, j < st.nodes.length := by
  induction h with
  | leaf => simp [ATree.idxs]
  | node parent i k p l r hslot hl hr ihl ihr =>
    intro j hj
    simp only [ATree.idxs, List.mem_append, List.mem_cons] at hj
    rcases hj with hj | hj | hj
    · exact ihl j hj
    · exact hj ▸ slotIs_lt hslot
    · exact ihr j hj

theorem congr {st st' : Storage K P} {par ro : Option ℕ} {t : ATree K P}
    (hsame : ∀ j ∈ t.idxs, st'.nodes[j]? = st.nodes[j]?)
    (h : Represents st par ro t) : Represents st' par ro t := by
  induction h with
  | leaf => exact .leaf _
  | node parent i k p l r hslot hl hr ihl ihr =>
    refine .node parent i k p l r ?_ ?_ ?_
    · have : st'.nodes[i]? = st.nodes[i]? := by
        refine hsame i ?_
        simp [ATree.idxs]
      rw [slotIs, this]
      exact hslot
    · refine ihl fun j hj => hsame j ?_
      simp [ATree.idxs, hj]
    · refine ihr fun j hj => hsame j ?_
      simp [ATree.idxs, hj]

theorem size_le_length {st : Storage K P} {par ro : Option ℕ} {t : ATree K P}
    (h : Represents st par ro t) (hnd : t.idxs.Nodup) :
    t.size ≤ st.nodes.length := by
  have hsz : t.size = t.idxs.length := by
    clear h hnd
    induction t with
    | leaf => rfl
    | node l i k p r ihl ihr => simp [ATree.size, ATree.idxs, ihl, ihr]; omega
  rw [hsz]
  exact nodup_length_le hnd (h.idx_lt_length)

end Represents

/-!
## Pure lemmas about the abstract tree
-/

namespace ATree

theorem inorder_map_fst (t : ATree K P) : t.inorder.map Prod.fst = t.keys := by
  induction t with
  | leaf => rfl
  | node l i k p r ihl ihr => simp [inorder, keys, ihl, ihr]

theorem keys_sorted_of_isBST {t : ATree K P} (h : t.IsBST) :
    t.keys.Sorted (· < ·) := by
  induction h with
  | leaf => exact List.sorted_nil
  | node hlk hkr hl hr ihl ihr =>
    rw [keys, List.Sorted, List.pairwise_append]
    refine ⟨ihl, ?_, ?_⟩
    · rw [List.pairwise_cons]
      exact ⟨hkr, ihr⟩
    · intro x hx y hy
      rcases List.mem_cons.1 hy with rfl | hy
      · exact hlk x hx
      · exact (hlk x hx).trans (hkr y hy)

theorem rootIdx_insertA_node (l : ATree K P) (i : ℕ) (k' : K) (p' : P)
    (r : ATree K P) (n : ℕ) (k : K) (p : P) :
    ((ATree.node l i k' p' r).insertA n k p).rootIdx = some i := by
  rw [insertA]
  split <;> [rfl; skip]
  split <;> rfl

theorem mem_keys_insertA {t : ATree K P} {n : ℕ} {k : K} {p : P} :
    ∀ x, x ∈ (t.insertA n k p).keys ↔ x ∈ t.keys ∨ x = k := by
  induction t with
  | leaf => simp [insertA, keys]
  | node l i k' p' r ihl ihr =>
    intro x
    rw [insertA]
    rcases lt_trichotomy k' k with h1 | h1 | h1
    · rw [if_pos h1]
      simp only [keys, List.mem_append, List.mem_cons, ihr]
      tauto
    · rw [if_neg (lt_irrefl k' ∘ (h1 ▸ id)), if_neg (lt_irrefl k' ∘ (h1 ▸ id))]
      subst h1
      simp only [keys, List.mem_append, List.mem_cons]
      tauto
    · rw [if_neg (asymm h1), if_pos h1]
      simp only [keys, List.mem_append, List.mem_cons, ihl]
      tauto

theorem isBST_insertA {t : ATree K P} (h : t.IsBST) (n : ℕ) (k : K) (p : P) :
    (t.insertA n k p).IsBST := by
  induction h with
  | leaf => exact .node (by simp [keys]) (by simp [keys]) .leaf .leaf
  | @node l i k' p' r hlk hkr hl hr ihl ihr =>
    rw [insertA]
    rcases lt_trichotomy k' k with h1 | h1 | h1
    · rw [if_pos h1]
      refine .node hlk ?_ hl ihr
      intro x hx
      rcases (mem_keys_insertA x).1 hx with hx | rfl
      · exact hkr x hx
      · exact h1
    · rw [if_neg (lt_irrefl k' ∘ (h1 ▸ id)), if_neg (lt_irrefl k' ∘ (h1 ▸ id))]
      exact .node hlk hkr hl hr
    · rw [if_neg (asymm h1), if_pos h1]
      refine .node ?_ hkr ihl hr
      intro x hx
      rcases (mem_keys_insertA x).1 hx with hx | rfl
      · exact hlk x hx
      · exact h1

theorem idxs_insertA_perm {t : ATree K P} {k : K} (h : k ∉ t.keys)
    (n : ℕ) (p : P) : (t.insertA n k p).idxs.Perm (n :: t.idxs) := by
  induction t with
  | leaf => simp [insertA, idxs]
  | node l i k' p' r ihl ihr =>
    simp only [keys, List.mem_append, List.mem_cons, not_or] at h
    obtain ⟨hl, hk', hr⟩ := h
    rw [insertA]
    rcases lt_trichotomy k' k with h1 | h1 | h1
    · rw [if_pos h1, idxs, idxs]
      have s1 : (l.idxs ++ i :: (r.insertA n k p).idxs).Perm
          (l.idxs ++ i :: n :: r.idxs) :=
        List.Perm.append_left _ (List.Perm.cons i (ihr hr))
      have s2 : (l.idxs ++ i :: n :: r.idxs).Perm
          (i :: (l.idxs ++ n :: r.idxs)) := List.perm_middle
      have s3 : (i :: (l.idxs ++ n :: r.idxs)).Perm
          (i :: n :: (l.idxs ++ r.idxs)) :=
        List.Perm.cons i List.perm_middle
      have s4 : (i :: n :: (l.idxs ++ r.idxs)).Perm
          (n :: i :: (l.idxs ++ r.idxs)) := List.Perm.swap n i _
      have s5 : (n :: i :: (l.idxs ++ r.idxs)).Perm
          (n :: (l.idxs ++ i :: r.idxs)) :=
        List.Perm.cons n List.perm_middle.symm
      exact ((((s1.trans s2).trans s3).trans s4).trans s5)
    · exact absurd h1.symm hk'
    · rw [if_neg (asymm h1), if_pos h1, idxs, idxs]
      exact List.Perm.append_right _ (ihl hl)

theorem inorder_insertA {t : ATree K P} {k : K} (h : k ∉ t.keys)
    (n : ℕ) (p : P) : (k, p) ∈ (t.insertA n k p).inorder := by
  induction t with
  | leaf => simp [insertA, inorder]
  | node l i k' p' r ihl ihr =>
    simp only [keys, List.mem_append, List.mem_cons, not_or] at h
    obtain ⟨hl, hk', hr⟩ := h
    rw [insertA]
    rcases lt_trichotomy k' k with h1 | h1 | h1
    · rw [if_pos h1]
      simp only [inorder, List.mem_append, List.mem_cons]
      exact Or.inr (Or.inr (ihr hr))
    · exact absurd h1.symm hk'
    · rw [if_neg (asymm h1), if_pos h1]
      simp only [inorder, List.mem_append, List.mem_cons]
      exact Or.inl (ihl hl)

theorem inorder_attachRightmost (l r : ATree K P) :
    (attachRightmost l r).inorder = l.inorder ++ r.inorder := by
  induction l with
  | leaf => simp [attachRightmost, inorder]
  | node a j k p b _ ihb => simp [attachRightmost, inorder, ihb]

theorem idxs_attachRightmost (l r : ATree K P) :
    (attachRightmost l r).idxs = l.idxs ++ r.idxs := by
  induction l with
  | leaf => simp [attachRightmost, idxs]
  | node a j k p b _ ihb => simp [attachRightmost, idxs, ihb]

theorem keys_attachRightmost (l r : ATree K P) :
    (attachRightmost l r).keys = l.keys ++ r.keys := by
  induction l with
  | leaf => simp [attachRightmost, keys]
  | node a j k p b _ ihb => simp [attachRightmost, keys, ihb]

end ATree

namespace ATree

theorem rootIdx_attachRightmost_of_ne (l r : ATree K P) (h : l ≠ .leaf) :
    (attachRightmost l r).rootIdx = l.rootIdx := by
  cases l with
  | leaf => exact absurd rfl h
  | node a j k p b => rfl

theorem isBST_attachRightmost {l r : ATree K P} (hl : l.IsBST) (hr : r.IsBST)
    (hlr : ∀ x ∈ l.keys, ∀ y ∈ r.keys, x < y) :
    (attachRightmost l r).IsBST := by
  induction hl with
  | leaf => exact hr
  | @node a j k p b hak hkb ha hb iha ihb =>
    rw [attachRightmost]
    refine .node hak ?_ ha (ihb ?_)
    · intro x hx
      rw [keys_attachRightmost] at hx
      rcases List.mem_append.1 hx with hx | hx
      · exact hkb x hx
      · exact hlr k (by simp [keys]) x hx
    · intro x hx y hy
      exact hlr x (by simp [keys, hx]) y hy

theorem idxs_removeA_sublist (t : ATree K P) (q : K) :
    (t.removeA q).idxs.Sublist t.idxs := by
  induction t with
  | leaf => simp [removeA]
  | node l i k p r ihl ihr =>
    rw [removeA]
    split
    · rw [idxs, idxs]
      exact ((ihr).cons₂ i).append_left l.idxs
    · split
      · rw [idxs, idxs]
        exact (ihl).append ((List.Sublist.refl _).cons₂ i)
      · rw [idxs_attachRightmost, idxs]
        exact ((List.sublist_cons_self i r.idxs).append_left l.idxs)

theorem keys_removeA_sublist (t : ATree K P) (q : K) :
    (t.removeA q).keys.Sublist t.keys := by
  induction t with
  | leaf => simp [removeA]
  | node l i k p r ihl ihr =>
    rw [removeA]
    split
    · rw [keys, keys]
      exact ((ihr).cons₂ k).append_left l.keys
    · split
      · rw [keys, keys]
        exact (ihl).append ((List.Sublist.refl _).cons₂ k)
      · rw [keys_attachRightmost, keys]
        exact ((List.sublist_cons_self k r.keys).append_left l.keys)

theorem isBST_removeA {t : ATree K P} (h : t.IsBST) (q : K) :
    (t.removeA q).IsBST := by
  induction h with
  | leaf => exact .leaf
  | @node l i k p r hlk hkr hl hr ihl ihr =>
    rw [removeA]
    split
    · exact .node hlk (fun x hx => hkr x ((keys_removeA_sublist r q).mem hx)) hl ihr
    · split
      · exact .node (fun x hx => hlk x ((keys_removeA_sublist l q).mem hx)) hkr ihl hr
      · exact isBST_attachRightmost hl hr
          (fun x hx y hy => (hlk x hx).trans (hkr y hy))

/-- The node matched by `removeA` really carries key `q`: deleting a present
key removes exactly one matching entry of the traversal and keeps the rest,
in order. -/
theorem inorder_removeA_split {t : ATree K P} (hbst : t.IsBST) {q : K}
    (hmem : q ∈ t.keys) :
    ∃ l1 x l2, t.inorder = l1 ++ (q, x) :: l2 ∧
      (t.removeA q).inorder = l1 ++ l2 ∧
      (∀ e ∈ l1, e.1 ≠ q) ∧ (∀ e ∈ l2, e.1 ≠ q) := by
  induction hbst with
  | leaf => cases hmem
  | @node l i k p r hlk hkr hl hr ihl ihr =>
    rw [keys, List.mem_append, List.mem_cons] at hmem
    rcases lt_trichotomy k q with h1 | h1 | h1
    · have hq : q ∈ r.keys := by
        rcases hmem with hm | hm | hm
        · exact absurd h1 (asymm (hlk q hm))
        · exact absurd h1 (hm ▸ lt_irrefl q)
        · exact hm
      obtain ⟨l1, x, l2, he1, he2, hn1, hn2⟩ := ihr hq
      refine ⟨l.inorder ++ (k, p) :: l1, x, l2, ?_, ?_, ?_, hn2⟩
      · rw [inorder, he1]
        simp
      · rw [removeA, if_pos h1, inorder, he2]
        simp
      · intro e he
        rcases List.mem_append.1 he with he | he
        · intro hek
          have : e.1 ∈ l.keys := by
            rw [← inorder_map_fst]
            exact List.mem_map_of_mem Prod.fst he
          exact absurd h1 (asymm (hek ▸ hlk e.1 this))
        · rcases List.mem_cons.1 he with rfl | he
          · exact fun hc => absurd h1 (hc ▸ lt_irrefl k)
          · exact hn1 e he
    · subst h1
      refine ⟨l.inorder, p, r.inorder, by rw [inorder], ?_, ?_, ?_⟩
      · rw [removeA, if_neg (lt_irrefl k), if_neg (lt_irrefl k),
          inorder_attachRightmost]
      · intro e he hek
        have : e.1 ∈ l.keys := by
          rw [← inorder_map_fst]
          exact List.mem_map_of_mem Prod.fst he
        exact absurd (hlk e.1 this) (hek ▸ lt_irrefl k)
      · intro e he hek
        have : e.1 ∈ r.keys := by
          rw [← inorder_map_fst]
          exact List.mem_map_of_mem Prod.fst he
        exact absurd (hkr e.1 this) (hek ▸ lt_irrefl k)
    · have hq : q ∈ l.keys := by
        rcases hmem with hm | hm | hm
        · exact hm
        · exact absurd h1 (hm ▸ lt_irrefl q)
        · exact absurd h1 (asymm (hkr q hm))
      obtain ⟨l1, x, l2, he1, he2, hn1, hn2⟩ := ihl hq
      refine ⟨l1, x, l2 ++ (k, p) :: r.inorder, ?_, ?_, hn1, ?_⟩
      · rw [inorder, he1]
        simp
      · rw [removeA, if_neg (asymm h1), if_pos h1, inorder, he2]
        simp
      · intro e he
        rcases List.mem_append.1 he with he | he
        · exact hn2 e he
        · rcases List.mem_cons.1 he with rfl | he
          · exact fun hc => absurd h1 (hc ▸ lt_irrefl k)
          · intro hek
            have : e.1 ∈ r.keys := by
              rw [← inorder_map_fst]
              exact List.mem_map_of_mem Prod.fst he
            exact absurd h1 (asymm (hek ▸ hkr e.1 this))

/-- In a BST whose root key is less than `q`, a present `q` lives in the
right subtree. -/
theorem mem_right_of_lt {l : ATree K P} {i : ℕ} {k : K} {p : P}
    {r : ATree K P} (h : (ATree.node l i k p r).IsBST) {q : K}
    (hmem : q ∈ (ATree.node l i k p r).keys) (hlt : k < q) : q ∈ r.keys := by
  cases h with
  | node hlk hkr hl hr =>
    rw [keys, List.mem_append, List.mem_cons] at hmem
    rcases hmem with hm | hm | hm
    · exact absurd hlt (asymm (hlk q hm))
    · exact absurd hlt (hm ▸ lt_irrefl q)
    · exact hm

/-- In a BST whose root key exceeds `q`, a present `q` lives in the left
subtree. -/
theorem mem_left_of_lt {l : ATree K P} {i : ℕ} {k : K} {p : P}
    {r : ATree K P} (h : (ATree.node l i k p r).IsBST) {q : K}
    (hmem : q ∈ (ATree.node l i k p r).keys) (hlt : q < k) : q ∈ l.keys := by
  cases h with
  | node hlk hkr hl hr =>
    rw [keys, List.mem_append, List.mem_cons] at hmem
    rcases hmem with hm | hm | hm
    · exact hm
    · exact absurd hlt (hm ▸ lt_irrefl q)
    · exact absurd hlt (asymm (hkr q hm))

end ATree

/-!
## Traversal primitive specifications
-/

theorem ATree.minIdx_node_leaf (i : ℕ) (k : K) (p : P) (r : ATree K P) :
    (ATree.node .leaf i k p r).minIdx = i := rfl

theorem ATree.minIdx_node_node {l : ATree K P} (hl : l ≠ .leaf) (i : ℕ)
    (k : K) (p : P) (r : ATree K P) :
    (ATree.node l i k p r).minIdx = l.minIdx := by
  cases l with
  | leaf => exact absurd rfl hl
  | node a j k' p' b => rfl

theorem ATree.maxIdx_node_leaf (l : ATree K P) (i : ℕ) (k : K) (p : P) :
    (ATree.node l i k p .leaf).maxIdx = i := rfl

theorem ATree.maxIdx_node_node (l : ATree K P) (i : ℕ) (k : K) (p : P)
    {r : ATree K P} (hr : r ≠ .leaf) :
    (ATree.node l i k p r).maxIdx = r.maxIdx := by
  cases r with
  | leaf => exact absurd rfl hr
  | node a j k' p' b => rfl

theorem fall_min_spec {st : Storage K P} {t : ATree K P} :
    ∀ {par : Option ℕ} {i f : ℕ}, Represents st par (some i) t →
    t.size < f → Node.fall_min st f i = .ok t.minIdx := by
  induction t with
  | leaf =>
    intro par i f h _
    cases h
  | node l i' k p r ihl ihr =>
    intro par i f h hf
    cases h with
    | node _ _ _ _ _ _ hslot hl hr =>
      cases f with
      | zero => omega
      | succ f =>
        rw [Node.fall_min, view_of_slotIs hslot, bind_ok_eq]
        cases l with
        | leaf =>
          simp [ATree.rootIdx, ATree.minIdx_node_leaf]
        | node a j k' p' b =>
          have hsz : (ATree.node a j k' p' b).size < f := by
            simp only [ATree.size] at hf ⊢
            omega
          simp only [ATree.rootIdx]
          rw [ihl hl hsz, ATree.minIdx_node_node (by simp) i' k p r]

theorem fall_max_spec {st : Storage K P} {t : ATree K P} :
    ∀ {par : Option ℕ} {i f : ℕ}, Represents st par (some i) t →
    t.size < f → Node.fall_max st f i = .ok t.maxIdx := by
  induction t with
  | leaf =>
    intro par i f h _
    cases h
  | node l i' k p r ihl ihr =>
    intro par i f h hf
    cases h with
    | node _ _ _ _ _ _ hslot hl hr =>
      cases f with
      | zero => omega
      | succ f =>
        rw [Node.fall_max, view_of_slotIs hslot, bind_ok_eq]
        cases r with
        | leaf =>
          simp [ATree.rootIdx, ATree.maxIdx_node_leaf]
        | node a j k' p' b =>
          have hsz : (ATree.node a j k' p' b).size < f := by
            simp only [ATree.size] at hf ⊢
            omega
          simp only [ATree.rootIdx]
          rw [ihr hr hsz, ATree.maxIdx_node_node l i' k p (by simp)]

theorem fall_min_mono {st : Storage K P} :
    ∀ {f i m}, Node.fall_min st f i = .ok m →
    Node.fall_min st (f + 1) i = .ok m := by
  intro f
  induction f with
  | zero =>
    intro i m h
    cases h
  | succ f ih =>
    intro i m h
    rw [Node.fall_min] at h
    cases hv : st.view i with
    | error e => rw [hv, bind_error_eq] at h; cases h
    | ok nd =>
      simp only [hv, bind_ok_eq] at h
      cases hc : nd.left_child with
      | none =>
        simp only [hc] at h
        rw [Node.fall_min]
        simp only [hv, bind_ok_eq, hc]
        exact h
      | some lc =>
        simp only [hc] at h
        rw [Node.fall_min]
        simp only [hv, bind_ok_eq, hc]
        exact ih h

theorem fall_min_mono_le {st : Storage K P} {f f' i : ℕ} {m : ℕ}
    (hle : f ≤ f') (h : Node.fall_min st f i = .ok m) :
    Node.fall_min st f' i = .ok m := by
  induction f' with
  | zero =>
    have : f = 0 := by omega
    subst this
    exact h
  | succ f' ih =>
    rcases Nat.lt_or_ge f (f' + 1) with hlt | hge
    · exact fall_min_mono (ih (by omega))
    · have : f = f' + 1 := by omega
      subst this
      exact h

theorem climb_mono {st : Storage K P} :
    ∀ {f i r}, Node.climb st f i = .ok r →
    Node.climb st (f + 1) i = .ok r := by
  intro f
  induction f with
  | zero =>
    intro i r h
    cases h
  | succ f ih =>
    intro i r h
    rw [Node.climb] at h
    cases hv : st.view i with
    | error e => rw [hv, bind_error_eq] at h; cases h
    | ok nd =>
      simp only [hv, bind_ok_eq] at h
      cases hp : nd.parent with
      | none =>
        simp only [hp] at h
        rw [Node.climb]
        simp only [hv, bind_ok_eq, hp]
        exact h
      | some p =>
        simp only [hp] at h
        cases hv2 : st.view p with
        | error e => rw [hv2, bind_error_eq] at h; cases h
        | ok pnd =>
          simp only [hv2, bind_ok_eq] at h
          cases hrc : pnd.right_child with
          | none =>
            simp only [hrc] at h
            rw [Node.climb]
            simp only [hv, bind_ok_eq, hp, hv2, hrc]
            exact h
          | some rc =>
            simp only [hrc] at h
            rw [Node.climb]
            simp only [hv, bind_ok_eq, hp, hv2, hrc]
            by_cases heq : rc = i
            · rw [if_pos heq] at h ⊢
              exact ih h
            · rw [if_neg heq] at h ⊢
              exact h

theorem climb_mono_le {st : Storage K P} {f f' i : ℕ} {r : Option ℕ}
    (hle : f ≤ f') (h : Node.climb st f i = .ok r) :
    Node.climb st f' i = .ok r := by
  induction f' with
  | zero =>
    have : f = 0 := by omega
    subst this
    exact h
  | succ f' ih =>
    rcases Nat.lt_or_ge f (f' + 1) with hlt | hge
    · exact climb_mono (ih (by omega))
    · have : f = f' + 1 := by omega
      subst this
      exact h

/-!
## Iterator correctness
-/

theorem ATree.rootIdx_mem_idxs {t : ATree K P} {j : ℕ}
    (h : t.rootIdx = some j) : j ∈ t.idxs := by
  cases t with
  | leaf => cases h
  | node l i k p r =>
    rw [ATree.rootIdx] at h
    simp [ATree.idxs, Option.some.inj h]

theorem iterNext_mono {st : Storage K P} {inner inner' i : ℕ}
    {nxt : Option ℕ} (hle : inner ≤ inner')
    (h : iterNext st inner i = .ok nxt) : iterNext st inner' i = .ok nxt := by
  rw [iterNext] at h
  cases hv : st.view i with
  | error e => rw [hv, bind_error_eq] at h; cases h
  | ok nd =>
    simp only [hv, bind_ok_eq] at h
    cases hrc : nd.right_child with
    | none =>
      simp only [hrc] at h
      rw [iterNext]
      simp only [hv, bind_ok_eq, hrc]
      exact climb_mono_le hle h
    | some rc =>
      simp only [hrc] at h
      cases hm : Node.fall_min st inner rc with
      | error e => rw [hm, bind_error_eq] at h; cases h
      | ok m =>
        simp only [hm, bind_ok_eq] at h
        rw [iterNext]
        simp only [hv, bind_ok_eq, hrc, fall_min_mono_le hle hm]
        exact h

theorem iterList_mono {st : Storage K P} :
    ∀ {f : ℕ} {inner : ℕ} {pos : Option ℕ} {res : List (K × P)},
    iterList st inner f pos = .ok res →
    ∀ {f' inner' : ℕ}, f ≤ f' → inner ≤ inner' →
    iterList st inner' f' pos = .ok res := by
  intro f
  induction f with
  | zero =>
    intro inner pos res h f' inner' _ _
    cases pos with
    | none =>
      rw [iterList] at h ⊢
      exact h
    | some i => cases h
  | succ f ih =>
    intro inner pos res h f' inner' hf hinner
    cases pos with
    | none =>
      rw [iterList] at h ⊢
      exact h
    | some i =>
      cases f' with
      | zero => omega
      | succ f' =>
        rw [iterList] at h
        cases hv : st.view i with
        | error e => rw [hv, bind_error_eq] at h; cases h
        | ok nd =>
          simp only [hv, bind_ok_eq] at h
          cases hnx : iterNext st inner i with
          | error e => rw [hnx, bind_error_eq] at h; cases h
          | ok nxt =>
            simp only [hnx, bind_ok_eq] at h
            cases hrest : iterList st inner f nxt with
            | error e => rw [hrest, bind_error_eq] at h; cases h
            | ok restl =>
              simp only [hrest, bind_ok_eq] at h
              rw [iterList]
              simp only [hv, bind_ok_eq, iterNext_mono hinner hnx,
                ih hrest (show f ≤ f' by omega) hinner]
              exact h

theorem Represents.node_inv {st : Storage K P} {par : Option ℕ} {i : ℕ}
    {l : ATree K P} {i' : ℕ} {k : K} {p : P} {r : ATree K P}
    (h : Represents st par (some i) (ATree.node l i' k p r)) :
    i = i' ∧ slotIs st i' ⟨⟨k, p⟩, par, l.rootIdx, r.rootIdx⟩ ∧
    Represents st (some i') l.rootIdx l ∧
    Represents st (some i') r.rootIdx r := by
  cases h with
  | node _ _ _ _ _ _ hslot hl hr => exact ⟨rfl, hslot, hl, hr⟩

/-- Walking `BSTIterator::next` through the subtree hanging at `i` yields
its in-order sequence and then continues from wherever `climb` escapes to
at the subtree root. -/
theorem iterList_spec {st : Storage K P} {t : ATree K P} :
    ∀ {par : Option ℕ} {i : ℕ}, Represents st par (some i) t →
    t.idxs.Nodup →
    ∀ {innerF : ℕ} {contPos : Option ℕ} {n : ℕ} {rest : List (K × P)},
    Node.climb st innerF i = .ok contPos →
    iterList st (innerF + t.size) n contPos = .ok rest →
    iterList st (innerF + t.size) (t.size + n) (some t.minIdx) =
      .ok (t.inorder ++ rest) := by
  induction t with
  | leaf =>
    intro par i h
    cases h
  | node l i' k p r ihl ihr =>
    intro par i h hnd innerF contPos n rest hclimb hcont
    obtain ⟨rfl, hslot, hl, hr⟩ := h.node_inv
    rw [ATree.idxs, List.nodup_append, List.nodup_cons] at hnd
    obtain ⟨hndl, ⟨hir, hndr⟩, hdisj⟩ := hnd
    have hgoal2 : iterList st (innerF + l.size + r.size + 1) (r.size + n + 1)
        (some i) = .ok ((k, p) :: (r.inorder ++ rest)) := by
      cases r with
      | leaf =>
        simp only [ATree.size, ATree.inorder, Nat.add_zero, Nat.zero_add,
          List.nil_append]
        rw [iterList, view_of_slotIs hslot, bind_ok_eq]
        have hnx : iterNext st (innerF + l.size + 1) i = .ok contPos := by
          rw [iterNext, view_of_slotIs hslot, bind_ok_eq]
          simp only [ATree.rootIdx]
          exact climb_mono_le (by omega) hclimb
        rw [hnx, bind_ok_eq]
        have hrest : iterList st (innerF + l.size + 1) n contPos = .ok rest :=
          iterList_mono hcont (le_refl n) (by simp [ATree.size]; omega)
        rw [hrest, bind_ok_eq]
      | node rl ri rk rp rr =>
        have hr2 : Represents st (some i) (some ri)
            (ATree.node rl ri rk rp rr) := by
          simpa [ATree.rootIdx] using hr
        obtain ⟨_, hslotr, hrl, hrr⟩ := hr2.node_inv
        rw [iterList, view_of_slotIs hslot, bind_ok_eq]
        have hnx : iterNext st (innerF + l.size + (ATree.node rl ri rk rp rr).size + 1) i =
            .ok (some (ATree.node rl ri rk rp rr).minIdx) := by
          rw [iterNext, view_of_slotIs hslot, bind_ok_eq]
          simp only [ATree.rootIdx]
          rw [fall_min_spec hr2 (by omega), bind_ok_eq]
        rw [hnx, bind_ok_eq]
        have hclimbr : Node.climb st (innerF + l.size + 1) ri = .ok contPos := by
          rw [Node.climb, view_of_slotIs hslotr, bind_ok_eq]
          simp only [view_of_slotIs hslot, bind_ok_eq, ATree.rootIdx,
            if_pos rfl]
          exact climb_mono_le (by omega) hclimb
        have hcontr : iterList st ((innerF + l.size + 1) +
            (ATree.node rl ri rk rp rr).size) n contPos = .ok rest :=
          iterList_mono hcont (le_refl n) (by simp [ATree.size]; omega)
        have hrpart := ihr hr2 hndr hclimbr hcontr
        rw [iterList_mono hrpart (le_refl _) (by omega), bind_ok_eq]
    cases l with
    | leaf =>
      rw [ATree.minIdx_node_leaf]
      rw [show (ATree.node ATree.leaf i k p r).inorder ++ rest =
        (k, p) :: (r.inorder ++ rest) from by simp [ATree.inorder]]
      exact iterList_mono hgoal2 (by simp [ATree.size]; omega)
        (by simp [ATree.size]; omega)
    | node ll li lk lp lr =>
      have hl2 : Represents st (some i) (some li)
          (ATree.node ll li lk lp lr) := by
        simpa [ATree.rootIdx] using hl
      obtain ⟨_, hslotl, hll, hlr⟩ := hl2.node_inv
      have hclimbl : Node.climb st (innerF + r.size + 1) li = .ok (some i) := by
        rw [Node.climb, view_of_slotIs hslotl, bind_ok_eq]
        simp only [view_of_slotIs hslot, bind_ok_eq, ATree.rootIdx]
        cases r with
        | leaf => simp [ATree.rootIdx]
        | node rl ri rk rp rr =>
          simp only [ATree.rootIdx]
          have hne : ¬ri = li := by
            intro hcon
            have hrimem : ri ∈ (ATree.node rl ri rk rp rr).idxs :=
              ATree.rootIdx_mem_idxs rfl
            have hlimem : li ∈ (ATree.node ll li lk lp lr).idxs :=
              ATree.rootIdx_mem_idxs rfl
            have : li ∉ i :: (ATree.node rl ri rk rp rr).idxs :=
              fun hmem => hdisj hlimem hmem
            exact this (by simp [← hcon, hrimem])
          rw [if_neg hne]
      have hcontl : iterList st ((innerF + r.size + 1) +
          (ATree.node ll li lk lp lr).size) (r.size + n + 1) (some i) =
          .ok ((k, p) :: (r.inorder ++ rest)) :=
        iterList_mono hgoal2 (le_refl _) (by omega)
      have hlpart := ihl hl2 hndl hclimbl hcontl
      rw [ATree.minIdx_node_node (by simp) i k p r]
      rw [show (ATree.node (ATree.node ll li lk lp lr) i k p r).inorder ++ rest =
        (ATree.node ll li lk lp lr).inorder ++ ((k, p) :: (r.inorder ++ rest))
        from by simp [ATree.inorder]]
      exact iterList_mono hlpart (by simp [ATree.size]; omega)
        (by simp [ATree.size]; omega)

/-- Full in-order iteration of a well-formed tree yields exactly the
abstract tree's in-order `(key, payload)` sequence. -/
theorem iterate_spec {b : BinarySearchTree K P} {t : ATree K P} (hwf : WF b t) :
    b.iterate = .ok t.inorder := by
  obtain ⟨hrepr, hnd, _⟩ := hwf
  cases t with
  | leaf =>
    have hroot : b.root = none := by
      have := hrepr.rootIdx_eq
      simpa [ATree.rootIdx] using this
    simp only [BinarySearchTree.iterate.eq_def, hroot]
    rfl
  | node l i' k p r =>
    have hroot : b.root = some i' := by
      have := hrepr.rootIdx_eq
      simpa [ATree.rootIdx] using this
    rw [hroot] at hrepr
    obtain ⟨_, hslot, _, _⟩ := hrepr.node_inv
    have hsz := hrepr.size_le_length hnd
    simp only [BinarySearchTree.iterate.eq_def, hroot]
    rw [fall_min_spec hrepr (by omega), bind_ok_eq]
    have hclimb1 : Node.climb b.storage 1 i' = .ok none := by
      rw [Node.climb, view_of_slotIs hslot, bind_ok_eq]
    have hcont0 : iterList b.storage (1 + (ATree.node l i' k p r).size) 0 none =
        .ok [] := by
      rw [iterList]
    have hmain := iterList_spec hrepr hnd hclimb1 hcont0
    rw [List.append_nil] at hmain
    exact iterList_mono hmain (by omega) (by omega)

/-!
## Insertion correctness
-/

/-- Walking `insert`'s loop towards a key that is already present performs
no writes and reports the existing node. -/
theorem insertLoop_present {st : Storage K P} {t : ATree K P} :
    ∀ {par : Option ℕ} {i : ℕ}, Represents st par (some i) t → t.IsBST →
    ∀ {key : K}, key ∈ t.keys → ∀ (payload : P) {f : ℕ}, t.size < f →
    BinarySearchTree.insertLoop st key payload f i = .ok (st, false, some (t.findIdx key)) := by
  induction t with
  | leaf =>
    intro par i h
    cases h
  | node l i' k' p' r ihl ihr =>
    intro par i h hbst key hmem payload f hf
    obtain ⟨rfl, hslot, hl, hr⟩ := h.node_inv
    cases f with
    | zero => omega
    | succ f =>
      rw [BinarySearchTree.insertLoop, view_of_slotIs hslot, bind_ok_eq]
      rcases lt_trichotomy k' key with h1 | h1 | h1
      · have hkr : key ∈ r.keys := ATree.mem_right_of_lt hbst hmem h1
        cases r with
        | leaf => cases hkr
        | node rl ri rk rp rr =>
          have hr2 : Represents st (some i) (some ri)
              (ATree.node rl ri rk rp rr) := by
            simpa [ATree.rootIdx] using hr
          simp only [Node.traverse_towards, if_pos h1, ATree.rootIdx]
          rw [show (ATree.node l i k' p' (ATree.node rl ri rk rp rr)).findIdx key
              = (ATree.node rl ri rk rp rr).findIdx key from by
            rw [ATree.findIdx, if_pos h1]]
          exact ihr hr2 (by cases hbst with | node _ _ _ hr' => exact hr') hkr
            payload (by simp only [ATree.size] at hf ⊢; omega)
      · subst h1
        simp only [Node.traverse_towards, if_neg (lt_irrefl k'),
          ATree.findIdx]
      · have hkl : key ∈ l.keys := ATree.mem_left_of_lt hbst hmem h1
        cases l with
        | leaf => cases hkl
        | node ll li lk lp lr =>
          have hl2 : Represents st (some i) (some li)
              (ATree.node ll li lk lp lr) := by
            simpa [ATree.rootIdx] using hl
          simp only [Node.traverse_towards, if_neg (asymm h1), if_pos h1,
            ATree.rootIdx]
          rw [show (ATree.node (ATree.node ll li lk lp lr) i k' p' r).findIdx key
              = (ATree.node ll li lk lp lr).findIdx key from by
            rw [ATree.findIdx, if_neg (asymm h1), if_pos h1]]
          exact ihl hl2 (by cases hbst with | node _ _ hl' _ => exact hl') hkl
            payload (by simp only [ATree.size] at hf ⊢; omega)

/-- The slot `findIdx` points at holds the queried key. -/
theorem findIdx_key {st : Storage K P} {t : ATree K P} :
    ∀ {par ro : Option ℕ}, Represents st par ro t → t.IsBST →
    ∀ {key : K}, key ∈ t.keys →
    ∃ nd : Node K P, slotIs st (t.findIdx key) nd ∧ nd.content.key = key := by
  induction t with
  | leaf =>
    intro par ro _ _ key hmem
    cases hmem
  | node l i' k' p' r ihl ihr =>
    intro par ro h hbst key hmem
    have hro : ro = some i' := h.rootIdx_eq
    subst hro
    obtain ⟨_, hslot, hl, hr⟩ := h.node_inv
    rcases lt_trichotomy k' key with h1 | h1 | h1
    · have hkr : key ∈ r.keys := ATree.mem_right_of_lt hbst hmem h1
      rw [ATree.findIdx, if_pos h1]
      exact ihr hr (by cases hbst with | node _ _ _ hr' => exact hr') hkr
    · subst h1
      rw [ATree.findIdx, if_neg (lt_irrefl k'), if_neg (lt_irrefl k')]
      exact ⟨_, hslot, rfl⟩
    · have hkl : key ∈ l.keys := ATree.mem_left_of_lt hbst hmem h1
      rw [ATree.findIdx, if_neg (asymm h1), if_pos h1]
      exact ihl hl (by cases hbst with | node _ _ hl' _ => exact hl') hkl

/-- `insert` of a key already present: no mutation at all, `inserted =
false`, iterator on the pre-existing node. -/
theorem insert_present {b : BinarySearchTree K P} {t : ATree K P}
    (hwf : WF b t) {key : K} (hmem : key ∈ t.keys) (payload : P) :
    b.insert key payload = .ok (b, false, some (t.findIdx key)) := by
  obtain ⟨hrepr, hnd, hbst⟩ := hwf
  cases t with
  | leaf => cases hmem
  | node l i' k' p' r =>
    have hroot : b.root = some i' := by
      have := hrepr.rootIdx_eq
      simpa [ATree.rootIdx] using this
    rw [hroot] at hrepr
    have hsz := hrepr.size_le_length hnd
    simp only [BinarySearchTree.insert.eq_def, hroot]
    rw [insertLoop_present hrepr hbst hmem payload (by omega), bind_ok_eq,
      ← hroot]

/-- Reading any slot other than the overwritten one and the appended one is
unchanged by `alloc`-then-link. -/
theorem frame_set_append {st : Storage K P} {x : Option (Node K P)}
    {iset : ℕ} {v : Option (Node K P)} :
    ∀ j, j ≠ iset → j ≠ st.nodes.length →
    ((st.nodes ++ [x]).set iset v)[j]? = st.nodes[j]? := by
  intro j hji hjN
  rw [List.getElem?_set_ne (Ne.symm hji)]
  rcases Nat.lt_or_ge j st.nodes.length with hj | hj
  · exact List.getElem?_append_left hj
  · have h2 : (st.nodes ++ [x]).length ≤ j := by
      rw [List.length_append, List.length_singleton]
      omega
    rw [List.getElem?_eq_none h2, List.getElem?_eq_none hj]

/-- Walking `insert`'s loop towards an absent key appends the new node at
slot `nodes.length` (the free list being empty), links it below the reached
leaf position, and leaves every other slot untouched. -/
theorem insertLoop_absent {st : Storage K P} {t : ATree K P} :
    ∀ {par : Option ℕ} {i : ℕ}, Represents st par (some i) t →
    t.idxs.Nodup → t.IsBST → st.available = [] →
    ∀ {key : K}, key ∉ t.keys → ∀ (payload : P) {f : ℕ}, t.size < f →
    ∃ st' : Storage K P,
      BinarySearchTree.insertLoop st key payload f i =
        .ok (st', true, some st.nodes.length) ∧
      Represents st' par (some i) (t.insertA st.nodes.length key payload) ∧
      st'.nodes.length = st.nodes.length + 1 ∧
      st'.available = [] ∧
      (∀ j, j ∉ t.idxs → j ≠ st.nodes.length → st'.nodes[j]? = st.nodes[j]?) := by
  induction t with
  | leaf =>
    intro par i h
    cases h
  | node l i' k' p' r ihl ihr =>
    intro par i h hnd hbst havail key hkey payload f hf
    obtain ⟨rfl, hslot, hl, hr⟩ := h.node_inv
    rw [ATree.idxs, List.nodup_append, List.nodup_cons] at hnd
    obtain ⟨hndl, ⟨hir, hndr⟩, hdisj⟩ := hnd
    have hlen_i : i < st.nodes.length := slotIs_lt hslot
    have hii : i ∉ l.idxs := fun hmem => hdisj hmem (by simp)
    cases f with
    | zero => omega
    | succ f =>
      rw [BinarySearchTree.insertLoop, view_of_slotIs hslot, bind_ok_eq]
      rcases lt_trichotomy k' key with h1 | h1 | h1
      · -- descend or insert to the right
        cases r with
        | leaf =>
          simp only [Node.traverse_towards, if_pos h1, ATree.rootIdx]
          simp only [Node.new, Arena.alloc, havail]
          have hslot1 : slotIs
              (⟨st.nodes ++ [some ⟨⟨key, payload⟩, some i, none, none⟩], []⟩ :
                Storage K P) i ⟨⟨k', p'⟩, par, l.rootIdx, none⟩ := by
            rw [slotIs]
            rw [List.getElem?_append_left hlen_i]
            exact hslot
          rw [modify_of_slotIs hslot1, bind_ok_eq]
          refine ⟨_, rfl, ?_, ?_, rfl, ?_⟩
          · rw [ATree.insertA, if_pos h1]
            refine Represents.node par i k' p'
              l (ATree.node .leaf st.nodes.length key payload .leaf) ?_ ?_ ?_
            · rw [slotIs, List.getElem?_set_self]
              · rfl
              · rw [List.length_append, List.length_singleton]
                omega
            · refine Represents.congr (fun j hj => ?_) hl
              exact frame_set_append j (fun hc => hii (hc ▸ hj))
                (fun hc => absurd (hc ▸ (hl.idx_lt_length j hj)) (lt_irrefl _))
            · refine Represents.node (some i) st.nodes.length key payload
                .leaf .leaf ?_ (.leaf _) (.leaf _)
              rw [slotIs, List.getElem?_set_ne (by omega)]
              rw [List.getElem?_concat_length]
              rfl
          · rw [List.length_set, List.length_append, List.length_singleton]
          · intro j hj hjN
            rw [ATree.idxs] at hj
            simp only [List.mem_append, List.mem_cons, not_or] at hj
            exact frame_set_append j (fun hc => hj.2.1 hc) hjN
        | node rl ri rk rp rr =>
          have hr2 : Represents st (some i) (some ri)
              (ATree.node rl ri rk rp rr) := by
            simpa [ATree.rootIdx] using hr
          have hkr : key ∉ (ATree.node rl ri rk rp rr).keys := by
            intro hc
            apply hkey
            rw [ATree.keys]
            simp [hc]
          obtain ⟨st', hrun, hrep, hlen, havail', hframe⟩ :=
            ihr hr2 hndr (by cases hbst with | node _ _ _ hr' => exact hr')
              havail hkr payload
              (f := f) (by simp only [ATree.size] at hf ⊢; omega)
          simp only [Node.traverse_towards, if_pos h1, ATree.rootIdx]
          refine ⟨st', hrun, ?_, hlen, havail', ?_⟩
          · rw [ATree.insertA, if_pos h1]
            have hroot_ins : ((ATree.node rl ri rk rp rr).insertA
                st.nodes.length key payload).rootIdx =
                (ATree.node rl ri rk rp rr).rootIdx := by
              rw [ATree.rootIdx_insertA_node]
              rfl
            refine Represents.node par i k' p' l _ ?_ ?_ ?_
            · rw [slotIs, hframe i hir (by omega), hroot_ins]
              exact hslot
            · refine Represents.congr (fun j hj => ?_) hl
              refine hframe j (fun hc => hdisj hj (by simp [hc])) ?_
              exact fun hc => absurd (hc ▸ (hl.idx_lt_length j hj)) (lt_irrefl _)
            · rw [hroot_ins]
              exact hrep
          · intro j hj hjN
            rw [ATree.idxs] at hj
            simp only [List.mem_append, List.mem_cons, not_or] at hj
            exact hframe j hj.2.2 hjN
      · exact absurd (by rw [ATree.keys]; simp [h1]) hkey
      · -- descend or insert to the left
        cases l with
        | leaf =>
          simp only [Node.traverse_towards, if_neg (asymm h1), if_pos h1,
            ATree.rootIdx]
          simp only [Node.new, Arena.alloc, havail]
          have hslot1 : slotIs
              (⟨st.nodes ++ [some ⟨⟨key, payload⟩, some i, none, none⟩], []⟩ :
                Storage K P) i ⟨⟨k', p'⟩, par, none, r.rootIdx⟩ := by
            rw [slotIs]
            rw [List.getElem?_append_left hlen_i]
            exact hslot
          rw [modify_of_slotIs hslot1, bind_ok_eq]
          refine ⟨_, rfl, ?_, ?_, rfl, ?_⟩
          · rw [ATree.insertA, if_neg (asymm h1), if_pos h1]
            refine Represents.node par i k' p'
              (ATree.node .leaf st.nodes.length key payload .leaf) r ?_ ?_ ?_
            · rw [slotIs, List.getElem?_set_self]
              · rfl
              · rw [List.length_append, List.length_singleton]
                omega
            · refine Represents.node (some i) st.nodes.length key payload
                .leaf .leaf ?_ (.leaf _) (.leaf _)
              rw [slotIs, List.getElem?_set_ne (by omega)]
              rw [List.getElem?_concat_length]
              rfl
            · refine Represents.congr (fun j hj => ?_) hr
              refine frame_set_append j (fun hc => hir (hc ▸ hj)) ?_
              exact fun hc => absurd (hc ▸ (hr.idx_lt_length j hj)) (lt_irrefl _)
          · rw [List.length_set, List.length_append, List.length_singleton]
          · intro j hj hjN
            rw [ATree.idxs] at hj
            simp only [List.mem_append, List.mem_cons, not_or] at hj
            exact frame_set_append j (fun hc => hj.2.1 hc) hjN
        | node ll li lk lp lr =>
          have hl2 : Represents st (some i) (some li)
              (ATree.node ll li lk lp lr) := by
            simpa [ATree.rootIdx] using hl
          have hkl : key ∉ (ATree.node ll li lk lp lr).keys := by
            intro hc
            apply hkey
            rw [ATree.keys]
            simp [hc]
          obtain ⟨st', hrun, hrep, hlen, havail', hframe⟩ :=
            ihl hl2 hndl (by cases hbst with | node _ _ hl' _ => exact hl')
              havail hkl payload
              (f := f) (by simp only [ATree.size] at hf ⊢; omega)
          simp only [Node.traverse_towards, if_neg (asymm h1), if_pos h1,
            ATree.rootIdx]
          refine ⟨st', hrun, ?_, hlen, havail', ?_⟩
          · rw [ATree.insertA, if_neg (asymm h1), if_pos h1]
            have hroot_ins : ((ATree.node ll li lk lp lr).insertA
                st.nodes.length key payload).rootIdx =
                (ATree.node ll li lk lp lr).rootIdx := by
              rw [ATree.rootIdx_insertA_node]
              rfl
            refine Represents.node par i k' p' _ r ?_ ?_ ?_
            · rw [slotIs, hframe i hii (by omega), hroot_ins]
              exact hslot
            · rw [hroot_ins]
              exact hrep
            · refine Represents.congr (fun j hj => ?_) hr
              refine hframe j (fun hc => hdisj hc (by simp [hj])) ?_
              exact fun hc => absurd (hc ▸ (hr.idx_lt_length j hj)) (lt_irrefl _)
          · intro j hj hjN
            rw [ATree.idxs] at hj
            simp only [List.mem_append, List.mem_cons, not_or] at hj
            exact hframe j hj.1 hjN

/-- `insert` of an absent key into a well-formed tree with an empty free
list: the node is appended at index `nodes.length` and the result is again
well-formed, representing the abstract insertion. -/
theorem insert_absent {b : BinarySearchTree K P} {t : ATree K P}
    (hwf : WF b t) (havail : b.storage.available = [])
    {key : K} (hkey : key ∉ t.keys) (payload : P) :
    ∃ b' : BinarySearchTree K P,
      b.insert key payload = .ok (b', true, some b.storage.nodes.length) ∧
      WF b' (t.insertA b.storage.nodes.length key payload) ∧
      b'.storage.available = [] ∧
      b'.storage.nodes.length = b.storage.nodes.length + 1 := by
  obtain ⟨hrepr, hnd, hbst⟩ := hwf
  cases t with
  | leaf =>
    have hroot : b.root = none := by
      simpa [ATree.rootIdx] using hrepr.rootIdx_eq
    refine ⟨⟨⟨b.storage.nodes ++ [some ⟨⟨key, payload⟩, none, none, none⟩], []⟩,
      some b.storage.nodes.length⟩, ?_, ⟨?_, ?_, ?_⟩, rfl, by simp⟩
    · simp only [BinarySearchTree.insert.eq_def, hroot, Node.new, Arena.alloc,
        havail]
    · refine Represents.node none b.storage.nodes.length key payload
        .leaf .leaf ?_ (.leaf _) (.leaf _)
      rw [slotIs, List.getElem?_concat_length]
      rfl
    · simp [ATree.insertA, ATree.idxs]
    · exact .node (by simp [ATree.keys]) (by simp [ATree.keys]) .leaf .leaf
  | node l i' k' p' r =>
    have hroot : b.root = some i' := by
      simpa [ATree.rootIdx] using hrepr.rootIdx_eq
    rw [hroot] at hrepr
    have hsz := hrepr.size_le_length hnd
    obtain ⟨st', hrun, hrep, hlen, havail', hframe⟩ :=
      insertLoop_absent hrepr hnd hbst havail hkey payload
        (f := b.storage.nodes.length + 1) (by omega)
    refine ⟨⟨st', b.root⟩, ?_, ⟨?_, ?_, ?_⟩, havail', hlen⟩
    · simp only [BinarySearchTree.insert.eq_def, hroot]
      rw [hrun, bind_ok_eq]
    · rw [hroot]
      exact hrep
    · rw [List.Perm.nodup_iff
        (ATree.idxs_insertA_perm hkey b.storage.nodes.length payload)]
      rw [List.nodup_cons]
      refine ⟨fun hc => ?_, hnd⟩
      exact absurd (hrepr.idx_lt_length _ hc) (lt_irrefl _)
    · exact ATree.isBST_insertA hbst _ key payload

/-- Any sequence of insertions keeps the tree well-formed with an empty
free list, and the key set grows exactly by the inserted keys. -/
theorem insertAll_spec :
    ∀ (ops : List (K × P)) (b : BinarySearchTree K P) (t : ATree K P),
    WF b t → b.storage.available = [] →
    ∃ (b' : BinarySearchTree K P) (t' : ATree K P),
      insertAll b ops = .ok b' ∧ WF b' t' ∧ b'.storage.available = [] ∧
      (∀ x, x ∈ t'.keys ↔ x ∈ t.keys ∨ x ∈ ops.map Prod.fst) := by
  intro ops
  induction ops with
  | nil =>
    intro b t hwf havail
    exact ⟨b, t, rfl, hwf, havail, by simp⟩
  | cons kp rest ih =>
    intro b t hwf havail
    obtain ⟨k, p⟩ := kp
    by_cases hmem : k ∈ t.keys
    · obtain ⟨b', t', hrun, hwf', havail', hkeys⟩ := ih b t hwf havail
      refine ⟨b', t', ?_, hwf', havail', fun x => ?_⟩
      · rw [insertAll, insert_present hwf hmem p, bind_ok_eq]
        exact hrun
      · rw [hkeys x]
        simp only [List.map_cons, List.mem_cons]
        constructor
        · tauto
        · rintro (hx | rfl | hx)
          · tauto
          · exact Or.inl hmem
          · tauto
    · obtain ⟨b1, hrun1, hwf1, havail1, _⟩ := insert_absent hwf havail hmem p
      obtain ⟨b', t', hrun, hwf', havail', hkeys⟩ := ih b1 _ hwf1 havail1
      refine ⟨b', t', ?_, hwf', havail', fun x => ?_⟩
      · rw [insertAll, hrun1, bind_ok_eq]
        exact hrun
      · rw [hkeys x, ATree.mem_keys_insertA x]
        simp only [List.map_cons, List.mem_cons]
        tauto

/-!
## Removal correctness
-/

theorem ATree.attachRightmost_leaf (l : ATree K P) :
    l.attachRightmost .leaf = l := by
  induction l with
  | leaf => rfl
  | node a j k p b _ ihb => rw [attachRightmost, ihb]

theorem ATree.maxIdx_mem {l : ATree K P} {j : ℕ} {k : K} {p : P}
    {b : ATree K P} : (ATree.node l j k p b).maxIdx ∈ (ATree.node l j k p b).idxs := by
  induction b generalizing l j k p with
  | leaf => simp [ATree.maxIdx_node_leaf, ATree.idxs]
  | node bl bj bk bp bb _ ihb =>
    rw [ATree.maxIdx_node_node _ _ _ _ (by simp)]
    rw [ATree.idxs]
    simp only [List.mem_append, List.mem_cons]
    exact Or.inr (Or.inr (ihb (l := bl) (j := bj) (k := bk) (p := bp)))

/-- Rebuild a `Represents` fact after rewriting the root slot's parent
pointer, in any storage that agrees with the old one on the rest of the
subtree. -/
theorem Represents.update_parent_ptwise {st str : Storage K P}
    {p0 p1 : Option ℕ} {a : ATree K P} {j : ℕ} {k : K} {p : P} {b : ATree K P}
    (h : Represents st p0 (some j) (ATree.node a j k p b))
    (hnd : (ATree.node a j k p b).idxs.Nodup)
    (hroot : str.nodes[j]? = some (some ⟨⟨k, p⟩, p1, a.rootIdx, b.rootIdx⟩))
    (hrest : ∀ x ∈ (ATree.node a j k p b).idxs, x ≠ j →
      str.nodes[x]? = st.nodes[x]?) :
    Represents str p1 (some j) (ATree.node a j k p b) := by
  obtain ⟨_, hslot, ha, hb⟩ := h.node_inv
  rw [ATree.idxs, List.nodup_append, List.nodup_cons] at hnd
  obtain ⟨hnda, ⟨hjb, hndb⟩, hdisj⟩ := hnd
  have hja : j ∉ a.idxs := fun hmem => hdisj hmem (by simp)
  refine Represents.node p1 j k p a b ?_ ?_ ?_
  · exact hroot
  · refine Represents.congr (fun x hx => ?_) ha
    refine hrest x (by rw [ATree.idxs]; simp [hx]) (fun hc => hja (hc ▸ hx))
  · refine Represents.congr (fun x hx => ?_) hb
    refine hrest x (by rw [ATree.idxs]; simp [hx]) (fun hc => hjb (hc ▸ hx))

/-- The rightmost node of a represented subtree is occupied and has no
right child. -/
theorem Represents.maxIdx_slot {st : Storage K P} {p0 : Option ℕ} {t : ATree K P} :
    ∀ {j : ℕ}, Represents st p0 (some j) t →
    ∃ nd : Node K P, slotIs st t.maxIdx nd ∧ nd.right_child = none := by
  induction t generalizing p0 with
  | leaf =>
    intro j h
    cases h
  | node a j' k p b iha ihb =>
    intro j h
    obtain ⟨rfl, hslot, ha, hb⟩ := h.node_inv
    cases b with
    | leaf =>
      rw [ATree.maxIdx_node_leaf]
      exact ⟨_, hslot, rfl⟩
    | node bl bj bk bp bb =>
      rw [ATree.maxIdx_node_node _ _ _ _ (by simp)]
      have hb2 : Represents st (some j) (some bj)
          (ATree.node bl bj bk bp bb) := by
        simpa [ATree.rootIdx] using hb
      exact ihb hb2

/-- Grafting the right subtree onto the rightmost node of the left subtree
represents `attachRightmost`. -/
theorem graft_repr {r : ATree K P} :
    ∀ (l : ATree K P) {st str : Storage K P} {np : Option ℕ} {li ri : ℕ},
    Represents st np (some li) l →
    l.idxs.Nodup →
    Represents str (some l.maxIdx) (some ri) r →
    (∀ j ∈ l.idxs, j ≠ l.maxIdx → str.nodes[j]? = st.nodes[j]?) →
    (∀ mnd : Node K P, slotIs st l.maxIdx mnd →
      str.nodes[l.maxIdx]? = some (some { mnd with right_child := some ri })) →
    Represents str np (some li) (l.attachRightmost r) := by
  intro l
  induction l with
  | leaf =>
    intro st str np li ri h
    cases h
  | node a j k p b iha ihb =>
    intro st str np li ri h hnd hr hsame hmax
    obtain ⟨rfl, hslot, ha, hb⟩ := h.node_inv
    rw [ATree.idxs, List.nodup_append, List.nodup_cons] at hnd
    obtain ⟨hnda, ⟨hjb, hndb⟩, hdisj⟩ := hnd
    have hja : li ∉ a.idxs := fun hmem => hdisj hmem (by simp)
    cases b with
    | leaf =>
      rw [ATree.attachRightmost, ATree.attachRightmost]
      rw [ATree.maxIdx_node_leaf] at hr hsame hmax
      refine Represents.node np li k p a r ?_ ?_ ?_
      · rw [slotIs, hmax _ hslot, hr.rootIdx_eq]
      · refine Represents.congr (fun x hx => ?_) ha
        exact hsame x (by rw [ATree.idxs]; simp [hx]) (fun hc => hja (hc ▸ hx))
      · rw [← hr.rootIdx_eq]
        exact hr
    | node bl bj bk bp bb =>
      have hmaxeq : (ATree.node a li k p (ATree.node bl bj bk bp bb)).maxIdx =
          (ATree.node bl bj bk bp bb).maxIdx :=
        ATree.maxIdx_node_node _ _ _ _ (by simp)
      have hmaxmem : (ATree.node bl bj bk bp bb).maxIdx ∈
          (ATree.node bl bj bk bp bb).idxs := ATree.maxIdx_mem
      rw [hmaxeq] at hr hsame hmax
      rw [ATree.attachRightmost]
      have hb2 : Represents st (some li) (some bj)
          (ATree.node bl bj bk bp bb) := by
        simpa [ATree.rootIdx] using hb
      refine Represents.node np li k p a
        ((ATree.node bl bj bk bp bb).attachRightmost r) ?_ ?_ ?_
      · have hxne : li ≠ (ATree.node bl bj bk bp bb).maxIdx :=
          fun hc => hjb (hc ▸ hmaxmem)
        rw [slotIs, hsame li (by rw [ATree.idxs]; simp) hxne]
        rw [ATree.rootIdx_attachRightmost_of_ne _ _ (by simp)]
        exact hslot
      · refine Represents.congr (fun x hx => ?_) ha
        refine hsame x (by rw [ATree.idxs]; simp [hx]) ?_
        exact fun hc => hdisj hx (by simp [hc, hmaxmem])
      · refine ihb hb2 hndb hr (fun x hx hxne => ?_) hmax
        exact hsame x (by rw [ATree.idxs]; simp [hx]) hxne


/-- `rebuild_tree` computes a storage representing `attachRightmost l r`
with the requested new parent, touching only slots of `l` and `r`. -/
theorem rebuild_spec {st : Storage K P} {l r : ATree K P}
    {oldpl oldpr np : Option ℕ}
    (hl : Represents st oldpl l.rootIdx l)
    (hr : Represents st oldpr r.rootIdx r)
    (hndl : l.idxs.Nodup) (hndr : r.idxs.Nodup)
    (hdisj : l.idxs.Disjoint r.idxs) :
    ∃ st' : Storage K P,
      BinarySearchTree.rebuild_tree st l.rootIdx r.rootIdx np =
        .ok (st', (l.attachRightmost r).rootIdx) ∧
      Represents st' np (l.attachRightmost r).rootIdx (l.attachRightmost r) ∧
      st'.nodes.length = st.nodes.length ∧
      st'.available = st.available ∧
      (∀ j, j ∉ l.idxs → j ∉ r.idxs → st'.nodes[j]? = st.nodes[j]?) := by
  cases l with
  | leaf =>
    cases r with
    | leaf =>
      refine ⟨st, ?_, .leaf _, rfl, rfl, fun j _ _ => rfl⟩
      simp only [ATree.rootIdx, BinarySearchTree.rebuild_tree.eq_def]
      rfl
    | node rl ri rk rp rr =>
      have hr2 : Represents st oldpr (some ri) (ATree.node rl ri rk rp rr) := by
        simpa [ATree.rootIdx] using hr
      obtain ⟨_, hslotr, _, _⟩ := hr2.node_inv
      have hri : ri < st.nodes.length := slotIs_lt hslotr
      refine ⟨⟨st.nodes.set ri
        (some ⟨⟨rk, rp⟩, np, rl.rootIdx, rr.rootIdx⟩), st.available⟩, ?_, ?_,
        by simp, rfl, ?_⟩
      · simp only [ATree.rootIdx, BinarySearchTree.rebuild_tree.eq_def,
          ATree.attachRightmost]
        rw [modify_of_slotIs hslotr, bind_ok_eq]
        rfl
      · simp only [ATree.attachRightmost]
        refine hr2.update_parent_ptwise hndr ?_ ?_
        · rw [List.getElem?_set_self hri]
        · intro x _ hxne
          rw [List.getElem?_set_ne (Ne.symm hxne)]
      · intro j _ hj
        have hne : ri ≠ j := by
          intro hc
          apply hj
          rw [← hc]
          exact ATree.rootIdx_mem_idxs rfl
        rw [List.getElem?_set_ne hne]
  | node a li k p b =>
    have hl2 : Represents st oldpl (some li) (ATree.node a li k p b) := by
      simpa [ATree.rootIdx] using hl
    obtain ⟨_, hslotl, _, _⟩ := hl2.node_inv
    have hli : li < st.nodes.length := slotIs_lt hslotl
    have hlimem : li ∈ (ATree.node a li k p b).idxs :=
      ATree.rootIdx_mem_idxs rfl
    set st1 : Storage K P := ⟨st.nodes.set li
      (some ⟨⟨k, p⟩, np, a.rootIdx, b.rootIdx⟩), st.available⟩ with hst1
    have hmod1 : st.modify li
        (fun n => { n with parent := np }) = .ok st1 := by
      rw [modify_of_slotIs hslotl]
    have hl1 : Represents st1 np (some li) (ATree.node a li k p b) := by
      refine hl2.update_parent_ptwise hndl ?_ ?_
      · rw [hst1]
        rw [List.getElem?_set_self hli]
      · intro x _ hxne
        rw [hst1]
        rw [List.getElem?_set_ne (Ne.symm hxne)]
    have hlen1 : st1.nodes.length = st.nodes.length := by
      rw [hst1]
      simp
    cases r with
    | leaf =>
      refine ⟨st1, ?_, ?_, hlen1, rfl, ?_⟩
      · simp only [ATree.rootIdx, BinarySearchTree.rebuild_tree.eq_def]
        rw [hmod1, bind_ok_eq, ATree.attachRightmost_leaf]
      · rw [ATree.attachRightmost_leaf]
        exact hl1
      · intro j hj _
        have hne : li ≠ j := fun hc => hj (hc ▸ hlimem)
        rw [hst1]
        rw [List.getElem?_set_ne hne]
    | node rl ri rk rp rr =>
      have hr2 : Represents st oldpr (some ri) (ATree.node rl ri rk rp rr) := by
        simpa [ATree.rootIdx] using hr
      obtain ⟨_, hslotr, _, _⟩ := hr2.node_inv
      have hrimem : ri ∈ (ATree.node rl ri rk rp rr).idxs :=
        ATree.rootIdx_mem_idxs rfl
      have hline : li ≠ ri := fun hc => hdisj hlimem (hc ▸ hrimem)
      have hmaxmem : (ATree.node a li k p b).maxIdx ∈
          (ATree.node a li k p b).idxs := ATree.maxIdx_mem
      have hmaxri : (ATree.node a li k p b).maxIdx ≠ ri :=
        fun hc => hdisj hmaxmem (hc ▸ hrimem)
      have hfall : Node.fall_max st1 (st1.nodes.length + 1) li =
          .ok (ATree.node a li k p b).maxIdx := by
        refine fall_max_spec hl1 ?_
        have := hl1.size_le_length hndl
        omega
      obtain ⟨mnd, hm, hmr⟩ := hl1.maxIdx_slot
      set st2 : Storage K P := ⟨st1.nodes.set (ATree.node a li k p b).maxIdx
        (some { mnd with right_child := some ri }), st1.available⟩ with hst2
      have hmod2 : st1.modify (ATree.node a li k p b).maxIdx
          (fun n => { n with right_child := some ri }) = .ok st2 := by
        rw [modify_of_slotIs hm]
      have hslotr2 : slotIs st2 ri ⟨⟨rk, rp⟩, oldpr, rl.rootIdx, rr.rootIdx⟩ := by
        rw [slotIs, hst2]
        rw [List.getElem?_set_ne hmaxri, hst1]
        rw [List.getElem?_set_ne hline]
        exact hslotr
      set st3 : Storage K P := ⟨st2.nodes.set ri
        (some ⟨⟨rk, rp⟩, some (ATree.node a li k p b).maxIdx, rl.rootIdx,
          rr.rootIdx⟩), st2.available⟩ with hst3
      have hmod3 : st2.modify ri
          (fun n => { n with parent := some (ATree.node a li k p b).maxIdx }) =
          .ok st3 := by
        rw [modify_of_slotIs hslotr2]
      have hri2 : ri < st2.nodes.length := slotIs_lt hslotr2
      have hr3 : Represents st3 (some (ATree.node a li k p b).maxIdx) (some ri)
          (ATree.node rl ri rk rp rr) := by
        refine hr2.update_parent_ptwise hndr ?_ ?_
        · rw [hst3]
          rw [List.getElem?_set_self hri2]
        · intro x hx hxne
          have h2 : (ATree.node a li k p b).maxIdx ≠ x := by
            intro hc
            rw [← hc] at hx
            exact hdisj hmaxmem hx
          have h3 : li ≠ x := by
            intro hc
            rw [← hc] at hx
            exact hdisj hlimem hx
          rw [hst3]
          rw [List.getElem?_set_ne (Ne.symm hxne), hst2]
          rw [List.getElem?_set_ne h2, hst1]
          rw [List.getElem?_set_ne h3]
      have hrepr3 : Represents st3 np
          (some li)
          ((ATree.node a li k p b).attachRightmost
            (ATree.node rl ri rk rp rr)) := by
        refine graft_repr _ hl1 hndl hr3 ?_ ?_
        · intro x hx hxne
          have h1 : ri ≠ x := by
            intro hc
            refine hdisj hx ?_
            rw [← hc]
            exact hrimem
          rw [hst3]
          rw [List.getElem?_set_ne h1, hst2]
          rw [List.getElem?_set_ne (Ne.symm hxne)]
        · intro mnd' hm'
          have hmm : mnd = mnd' := by
            rw [slotIs] at hm hm'
            rw [hm] at hm'
            exact Option.some.inj (Option.some.inj hm')
          subst hmm
          rw [hst3]
          rw [List.getElem?_set_ne (Ne.symm hmaxri), hst2]
          rw [List.getElem?_set_self]
          have := slotIs_lt hm
          omega
      have hrootat : ((ATree.node a li k p b).attachRightmost
          (ATree.node rl ri rk rp rr)).rootIdx = some li := by
        rw [ATree.rootIdx_attachRightmost_of_ne _ _ (by simp)]
        rfl
      refine ⟨st3, ?_, ?_, ?_, ?_, ?_⟩
      · rw [hrootat]
        simp only [ATree.rootIdx, BinarySearchTree.rebuild_tree.eq_def]
        rw [hmod1, bind_ok_eq, hfall, bind_ok_eq, hmod2, bind_ok_eq, hmod3,
          bind_ok_eq]
      · rw [hrootat]
        exact hrepr3
      · rw [hst3, hst2, hst1]
        simp
      · rw [hst3, hst2, hst1]
      · intro j hjl hjr
        have h1 : ri ≠ j := fun hc => hjr (hc ▸ hrimem)
        have h2 : (ATree.node a li k p b).maxIdx ≠ j :=
          fun hc => hjl (hc ▸ hmaxmem)
        have h3 : li ≠ j := fun hc => hjl (hc ▸ hlimem)
        rw [hst3]
        rw [List.getElem?_set_ne h1, hst2]
        rw [List.getElem?_set_ne h2, hst1]
        rw [List.getElem?_set_ne h3]

theorem patchChild_self (pn : Node K P) (old : ℕ) :
    patchChild pn old (some old) = pn := by
  by_cases h1 : pn.left_child = some old
  · rw [patchChild, if_pos h1, ← h1]
  · by_cases h2 : pn.right_child = some old
    · rw [patchChild, if_neg h1, if_pos h2, ← h2]
    · rw [patchChild, if_neg h1, if_neg h2]

/-- `remove_node` on a node that has a parent: the slot is freed, the
splice is installed, and the parent's matching child link is patched. -/
theorem remove_node_parent {b : BinarySearchTree K P} {l : ATree K P} {i : ℕ}
    {k : K} {p : P} {r : ATree K P} {pIdx : ℕ} {pn : Node K P}
    (h : Represents b.storage (some pIdx) (some i) (ATree.node l i k p r))
    (hnd : (ATree.node l i k p r).idxs.Nodup)
    (hpn : slotIs b.storage pIdx pn)
    (hpmem : pIdx ∉ (ATree.node l i k p r).idxs)
    (hchild : pn.left_child = some i ∨ pn.right_child = some i) :
    ∃ st' : Storage K P,
      b.remove_node i = .ok ⟨st', b.root⟩ ∧
      Represents st' (some pIdx) (l.attachRightmost r).rootIdx
        (l.attachRightmost r) ∧
      st'.nodes.length = b.storage.nodes.length ∧
      st'.available = i :: b.storage.available ∧
      (∀ j, j ∉ (ATree.node l i k p r).idxs → j ≠ pIdx →
        st'.nodes[j]? = b.storage.nodes[j]?) ∧
      st'.nodes[pIdx]? =
        some (some (patchChild pn i (l.attachRightmost r).rootIdx)) := by
  obtain ⟨_, hslot, hl, hr⟩ := h.node_inv
  rw [ATree.idxs, List.nodup_append, List.nodup_cons] at hnd
  obtain ⟨hndl, ⟨hir, hndr⟩, hdisj⟩ := hnd
  have hii : i ∉ l.idxs := fun hmem => hdisj hmem (by simp)
  have hdisjlr : l.idxs.Disjoint r.idxs :=
    fun x hxl hxr => hdisj hxl (by simp [hxr])
  have hpl : pIdx ∉ l.idxs := by
    intro hc
    apply hpmem
    rw [ATree.idxs]
    simp [hc]
  have hpr : pIdx ∉ r.idxs := by
    intro hc
    apply hpmem
    rw [ATree.idxs]
    simp [hc]
  have hpi : pIdx ≠ i := by
    intro hc
    apply hpmem
    rw [ATree.idxs, hc]
    simp
  set stR : Storage K P := ⟨b.storage.nodes.set i none,
    i :: b.storage.available⟩ with hstR
  have hlR : Represents stR (some i) l.rootIdx l := by
    refine Represents.congr (fun j hj => ?_) hl
    rw [hstR]
    refine List.getElem?_set_ne ?_
    intro hc
    rw [← hc] at hj
    exact hii hj
  have hrR : Represents stR (some i) r.rootIdx r := by
    refine Represents.congr (fun j hj => ?_) hr
    rw [hstR]
    refine List.getElem?_set_ne ?_
    intro hc
    rw [← hc] at hj
    exact hir hj
  obtain ⟨st2, hreb, hrep2, hlen2, havail2, hframe2⟩ :=
    @rebuild_spec K P _ _ _ _ _ _ (some pIdx) hlR hrR hndl hndr hdisjlr
  have hlenR : stR.nodes.length = b.storage.nodes.length := by
    rw [hstR]
    simp
  have hslotp2 : slotIs st2 pIdx pn := by
    rw [slotIs, hframe2 pIdx hpl hpr, hstR]
    rw [List.getElem?_set_ne (Ne.symm hpi)]
    exact hpn
  have hmem_attach : ∀ j ∈ (l.attachRightmost r).idxs,
      j ∈ l.idxs ∨ j ∈ r.idxs := by
    intro j hj
    rw [ATree.idxs_attachRightmost] at hj
    exact List.mem_append.1 hj
  by_cases hleft : pn.left_child = some i
  · refine ⟨⟨st2.nodes.set pIdx
      (some { pn with left_child := (l.attachRightmost r).rootIdx }),
      st2.available⟩, ?_, ?_, ?_, ?_, ?_, ?_⟩
    · rw [BinarySearchTree.remove_node, view_of_slotIs hslot, bind_ok_eq,
        remove_of_slotIs hslot, bind_ok_eq]
      simp only [← hstR, hreb, bind_ok_eq, view_of_slotIs hslotp2,
        if_pos hleft, modify_of_slotIs hslotp2]
    · refine Represents.congr (fun j hj => ?_) hrep2
      refine List.getElem?_set_ne (fun hc => ?_)
      rcases hmem_attach j hj with hjm | hjm
      · exact hpl (hc ▸ hjm)
      · exact hpr (hc ▸ hjm)
    · simp only [List.length_set, hlen2, hlenR]
    · rw [havail2, hstR]
    · intro j hj hjp
      rw [ATree.idxs] at hj
      simp only [List.mem_append, List.mem_cons, not_or] at hj
      rw [List.getElem?_set_ne (Ne.symm hjp), hframe2 j hj.1 hj.2.2, hstR]
      exact List.getElem?_set_ne (fun hc => hj.2.1 hc.symm)
    · rw [List.getElem?_set_self (by rw [hlen2, hlenR]; exact slotIs_lt hpn)]
      rw [patchChild, if_pos hleft]
  · have hright : pn.right_child = some i := hchild.resolve_left hleft
    refine ⟨⟨st2.nodes.set pIdx
      (some { pn with right_child := (l.attachRightmost r).rootIdx }),
      st2.available⟩, ?_, ?_, ?_, ?_, ?_, ?_⟩
    · rw [BinarySearchTree.remove_node, view_of_slotIs hslot, bind_ok_eq,
        remove_of_slotIs hslot, bind_ok_eq]
      simp only [← hstR, hreb, bind_ok_eq, view_of_slotIs hslotp2,
        if_neg hleft, if_pos hright, modify_of_slotIs hslotp2]
    · refine Represents.congr (fun j hj => ?_) hrep2
      refine List.getElem?_set_ne (fun hc => ?_)
      rcases hmem_attach j hj with hjm | hjm
      · exact hpl (hc ▸ hjm)
      · exact hpr (hc ▸ hjm)
    · simp only [List.length_set, hlen2, hlenR]
    · rw [havail2, hstR]
    · intro j hj hjp
      rw [ATree.idxs] at hj
      simp only [List.mem_append, List.mem_cons, not_or] at hj
      rw [List.getElem?_set_ne (Ne.symm hjp), hframe2 j hj.1 hj.2.2, hstR]
      exact List.getElem?_set_ne (fun hc => hj.2.1 hc.symm)
    · rw [List.getElem?_set_self (by rw [hlen2, hlenR]; exact slotIs_lt hpn)]
      rw [patchChild, if_neg hleft, if_pos hright]

/-- `remove_node` on the parentless (root) node: the slot is freed, the
splice is installed, and the tree root is redirected. -/
theorem remove_node_root {b : BinarySearchTree K P} {l : ATree K P} {i : ℕ}
    {k : K} {p : P} {r : ATree K P}
    (h : Represents b.storage none (some i) (ATree.node l i k p r))
    (hnd : (ATree.node l i k p r).idxs.Nodup) :
    ∃ st' : Storage K P,
      b.remove_node i = .ok ⟨st', (l.attachRightmost r).rootIdx⟩ ∧
      Represents st' none (l.attachRightmost r).rootIdx
        (l.attachRightmost r) ∧
      st'.nodes.length = b.storage.nodes.length ∧
      st'.available = i :: b.storage.available ∧
      (∀ j, j ∉ (ATree.node l i k p r).idxs →
        st'.nodes[j]? = b.storage.nodes[j]?) := by
  obtain ⟨_, hslot, hl, hr⟩ := h.node_inv
  rw [ATree.idxs, List.nodup_append, List.nodup_cons] at hnd
  obtain ⟨hndl, ⟨hir, hndr⟩, hdisj⟩ := hnd
  have hii : i ∉ l.idxs := fun hmem => hdisj hmem (by simp)
  have hdisjlr : l.idxs.Disjoint r.idxs :=
    fun x hxl hxr => hdisj hxl (by simp [hxr])
  set stR : Storage K P := ⟨b.storage.nodes.set i none,
    i :: b.storage.available⟩ with hstR
  have hlR : Represents stR (some i) l.rootIdx l := by
    refine Represents.congr (fun j hj => ?_) hl
    rw [hstR]
    refine List.getElem?_set_ne ?_
    intro hc
    rw [← hc] at hj
    exact hii hj
  have hrR : Represents stR (some i) r.rootIdx r := by
    refine Represents.congr (fun j hj => ?_) hr
    rw [hstR]
    refine List.getElem?_set_ne ?_
    intro hc
    rw [← hc] at hj
    exact hir hj
  obtain ⟨st2, hreb, hrep2, hlen2, havail2, hframe2⟩ :=
    @rebuild_spec K P _ _ _ _ _ _ none hlR hrR hndl hndr hdisjlr
  have hlenR : stR.nodes.length = b.storage.nodes.length := by
    rw [hstR]
    simp
  refine ⟨st2, ?_, hrep2, by rw [hlen2, hlenR], by rw [havail2, hstR], ?_⟩
  · rw [BinarySearchTree.remove_node, view_of_slotIs hslot, bind_ok_eq,
      remove_of_slotIs hslot, bind_ok_eq]
    simp only [← hstR, hreb, bind_ok_eq]
  · intro j hj
    rw [ATree.idxs] at hj
    simp only [List.mem_append, List.mem_cons, not_or] at hj
    rw [hframe2 j hj.1 hj.2.2, hstR]
    exact List.getElem?_set_ne (fun hc => hj.2.1 hc.symm)

/-- Walking `remove`'s loop towards a present key excises exactly the node
carrying that key, representing the abstract `removeA`; the removed node's
parent gets its child link patched, and nothing else changes. -/
theorem removeLoop_spec {b : BinarySearchTree K P} {t : ATree K P} :
    ∀ {par : Option ℕ} {i : ℕ}, Represents b.storage par (some i) t →
    t.idxs.Nodup → t.IsBST →
    ∀ {q : K}, q ∈ t.keys →
    (∀ pIdx, par = some pIdx →
      pIdx ∉ t.idxs ∧ ∃ pn : Node K P, slotIs b.storage pIdx pn ∧
        (pn.left_child = some i ∨ pn.right_child = some i)) →
    (par = none → b.root = some i) →
    ∀ {f : ℕ}, t.size < f →
    ∃ (st' : Storage K P) (ro' : Option ℕ),
      BinarySearchTree.removeLoop b q f i = .ok (⟨st', ro'⟩, true) ∧
      (par = none → ro' = (t.removeA q).rootIdx) ∧
      (∀ pIdx, par = some pIdx → ro' = b.root) ∧
      Represents st' par (t.removeA q).rootIdx (t.removeA q) ∧
      st'.nodes.length = b.storage.nodes.length ∧
      (∃ rm, rm ∈ t.idxs ∧ st'.available = rm :: b.storage.available) ∧
      (∀ j, j ∉ t.idxs → (∀ pIdx, par = some pIdx → j ≠ pIdx) →
        st'.nodes[j]? = b.storage.nodes[j]?) ∧
      (∀ pIdx pn, par = some pIdx → slotIs b.storage pIdx pn →
        st'.nodes[pIdx]? =
          some (some (patchChild pn i (t.removeA q).rootIdx))) := by
  induction t with
  | leaf =>
    intro par i h
    cases h
  | node l i' k p r ihl ihr =>
    intro par i h hnd hbst q hmem hctx hroot f hf
    have hnd0 := hnd
    obtain ⟨rfl, hslot, hl, hr⟩ := h.node_inv
    rw [ATree.idxs, List.nodup_append, List.nodup_cons] at hnd
    obtain ⟨hndl, ⟨hir, hndr⟩, hdisj⟩ := hnd
    have hii : i ∉ l.idxs := fun hmem' => hdisj hmem' (by simp)
    have himem : i ∈ (ATree.node l i k p r).idxs := by
      rw [ATree.idxs]
      simp
    cases f with
    | zero => omega
    | succ f =>
      rcases lt_trichotomy k q with h1 | h1 | h1
      · -- the key lies in the right subtree
        have hkr : q ∈ r.keys := ATree.mem_right_of_lt hbst hmem h1
        cases r with
        | leaf => cases hkr
        | node rl ri rk rp rr =>
          have hr2 : Represents b.storage (some i) (some ri)
              (ATree.node rl ri rk rp rr) := by
            simpa [ATree.rootIdx] using hr
          have hrimem : ri ∈ (ATree.node rl ri rk rp rr).idxs :=
            ATree.rootIdx_mem_idxs rfl
          have hlne : l.rootIdx ≠ some ri := by
            intro hc
            exact hdisj (ATree.rootIdx_mem_idxs hc) (by simp [hrimem])
          obtain ⟨st', ro', hrun, _, hro2, hrep, hlen, ⟨rm, hrmm, hav⟩,
              hframe, hpatch⟩ :=
            ihr hr2 hndr (by cases hbst with | node _ _ _ hr' => exact hr') hkr
              (fun pIdx' heq => by
                obtain rfl : i = pIdx' := Option.some.inj heq
                exact ⟨hir, ⟨⟨k, p⟩, par, l.rootIdx,
                  (ATree.node rl ri rk rp rr).rootIdx⟩, hslot,
                  Or.inr (by simp [ATree.rootIdx])⟩)
              (fun hcon => Option.noConfusion hcon)
              (f := f) (by simp only [ATree.size] at hf ⊢; omega)
          obtain rfl : ro' = b.root := hro2 i rfl
          have hremA : (ATree.node l i k p
              (ATree.node rl ri rk rp rr)).removeA q =
              ATree.node l i k p ((ATree.node rl ri rk rp rr).removeA q) := by
            rw [ATree.removeA, if_pos h1]
          have hcond : (ATree.node rl ri rk rp rr).rootIdx = some ri := rfl
          have hpc : patchChild (⟨⟨k, p⟩, par, l.rootIdx,
              (ATree.node rl ri rk rp rr).rootIdx⟩ : Node K P) ri
              ((ATree.node rl ri rk rp rr).removeA q).rootIdx =
              ⟨⟨k, p⟩, par, l.rootIdx,
                ((ATree.node rl ri rk rp rr).removeA q).rootIdx⟩ := by
            rw [patchChild, if_neg hlne, if_pos hcond]
          refine ⟨st', b.root, ?_, ?_, fun _ _ => rfl, ?_, hlen,
            ⟨rm, ?_, hav⟩, ?_, ?_⟩
          · rw [BinarySearchTree.removeLoop, view_of_slotIs hslot, bind_ok_eq]
            simp only [Node.traverse_towards, if_pos h1, ATree.rootIdx]
            exact hrun
          · intro hpn
            rw [hroot hpn, hremA]
            rfl
          · rw [hremA]
            refine Represents.node par i k p l _ ?_ ?_ ?_
            · rw [slotIs, hpatch i _ rfl hslot, hpc]
            · refine Represents.congr (fun j hj => ?_) hl
              refine hframe j (fun hc => hdisj hj (by simp [hc])) ?_
              intro pIdx' heq
              obtain rfl : i = pIdx' := Option.some.inj heq
              exact fun hc => hii (hc ▸ hj)
            · exact hrep
          · rw [ATree.idxs]
            simp [hrmm]
          · intro j hj hjp
            rw [ATree.idxs] at hj
            simp only [List.mem_append, List.mem_cons, not_or] at hj
            refine hframe j hj.2.2 ?_
            intro pIdx' heq
            obtain rfl : i = pIdx' := Option.some.inj heq
            exact hj.2.1
          · intro pIdx0 pn0 heq hpn0
            subst heq
            obtain ⟨hpmem0, _⟩ := hctx pIdx0 rfl
            have hroot_rem : ((ATree.node l i k p
                (ATree.node rl ri rk rp rr)).removeA q).rootIdx = some i := by
              rw [hremA]
              rfl
            rw [hroot_rem, patchChild_self]
            rw [hframe pIdx0
              (fun hc => hpmem0 (by rw [ATree.idxs]; simp [hc]))
              (fun pIdx' heq' => by
                obtain rfl : i = pIdx' := Option.some.inj heq'
                exact fun hc => hpmem0 (hc ▸ himem))]
            exact hpn0
      · -- the key is at this node: excise it
        subst h1
        have hremA : (ATree.node l i k p r).removeA k =
            l.attachRightmost r := by
          rw [ATree.removeA, if_neg (lt_irrefl k), if_neg (lt_irrefl k)]
        cases par with
        | none =>
          obtain ⟨st', hrn, hrep, hlen, hav, hframe⟩ := remove_node_root h hnd0
          refine ⟨st', (l.attachRightmost r).rootIdx, ?_, ?_, ?_, ?_, hlen,
            ⟨i, himem, hav⟩, ?_, ?_⟩
          · rw [BinarySearchTree.removeLoop, view_of_slotIs hslot, bind_ok_eq]
            simp only [Node.traverse_towards, if_neg (lt_irrefl k)]
            rw [hrn, bind_ok_eq]
          · intro _
            rw [hremA]
          · intro pIdx0 heq
            exact Option.noConfusion heq
          · rw [hremA]
            exact hrep
          · intro j hj _
            exact hframe j hj
          · intro pIdx0 pn0 heq
            exact Option.noConfusion heq
        | some pIdx =>
          obtain ⟨hpmem, pn, hpn, hchild⟩ := hctx pIdx rfl
          obtain ⟨st', hrn, hrep, hlen, hav, hframe, hpatch⟩ :=
            remove_node_parent h hnd0 hpn hpmem hchild
          refine ⟨st', b.root, ?_, ?_, fun _ _ => rfl, ?_, hlen,
            ⟨i, himem, hav⟩, ?_, ?_⟩
          · rw [BinarySearchTree.removeLoop, view_of_slotIs hslot, bind_ok_eq]
            simp only [Node.traverse_towards, if_neg (lt_irrefl k)]
            rw [hrn, bind_ok_eq]
          · intro hcon
            exact absurd hcon (by simp)
          · rw [hremA]
            exact hrep
          · intro j hj hjp
            exact hframe j hj (hjp pIdx rfl)
          · intro pIdx0 pn0 heq hpn0
            obtain rfl : pIdx = pIdx0 := Option.some.inj heq
            have hpneq : pn0 = pn := by
              rw [slotIs] at hpn hpn0
              rw [hpn] at hpn0
              exact (Option.some.inj (Option.some.inj hpn0)).symm
            subst hpneq
            rw [hremA]
            exact hpatch
      · -- the key lies in the left subtree
        have hkl : q ∈ l.keys := ATree.mem_left_of_lt hbst hmem h1
        cases l with
        | leaf => cases hkl
        | node ll li lk lp lr =>
          have hl2 : Represents b.storage (some i) (some li)
              (ATree.node ll li lk lp lr) := by
            simpa [ATree.rootIdx] using hl
          have hlimem : li ∈ (ATree.node ll li lk lp lr).idxs :=
            ATree.rootIdx_mem_idxs rfl
          obtain ⟨st', ro', hrun, _, hro2, hrep, hlen, ⟨rm, hrmm, hav⟩,
              hframe, hpatch⟩ :=
            ihl hl2 hndl (by cases hbst with | node _ _ hl' _ => exact hl') hkl
              (fun pIdx' heq => by
                obtain rfl : i = pIdx' := Option.some.inj heq
                refine ⟨fun hc => hdisj hc (by simp), ⟨⟨k, p⟩, par,
                  (ATree.node ll li lk lp lr).rootIdx, r.rootIdx⟩, hslot,
                  Or.inl (by simp [ATree.rootIdx])⟩)
              (fun hcon => Option.noConfusion hcon)
              (f := f) (by simp only [ATree.size] at hf ⊢; omega)
          obtain rfl : ro' = b.root := hro2 i rfl
          have hremA : (ATree.node (ATree.node ll li lk lp lr) i k p
              r).removeA q =
              ATree.node ((ATree.node ll li lk lp lr).removeA q) i k p r := by
            rw [ATree.removeA, if_neg (asymm h1), if_pos h1]
          have hcond : (ATree.node ll li lk lp lr).rootIdx = some li := rfl
          have hpc : patchChild (⟨⟨k, p⟩, par,
              (ATree.node ll li lk lp lr).rootIdx, r.rootIdx⟩ : Node K P) li
              ((ATree.node ll li lk lp lr).removeA q).rootIdx =
              ⟨⟨k, p⟩, par,
                ((ATree.node ll li lk lp lr).removeA q).rootIdx,
                r.rootIdx⟩ := by
            rw [patchChild, if_pos hcond]
          refine ⟨st', b.root, ?_, ?_, fun _ _ => rfl, ?_, hlen,
            ⟨rm, ?_, hav⟩, ?_, ?_⟩
          · rw [BinarySearchTree.removeLoop, view_of_slotIs hslot, bind_ok_eq]
            simp only [Node.traverse_towards, if_neg (asymm h1), if_pos h1,
              ATree.rootIdx]
            exact hrun
          · intro hpn
            rw [hroot hpn, hremA]
            rfl
          · rw [hremA]
            refine Represents.node par i k p _ r ?_ ?_ ?_
            · rw [slotIs, hpatch i _ rfl hslot, hpc]
            · exact hrep
            · refine Represents.congr (fun j hj => ?_) hr
              refine hframe j (fun hc => hdisj hc (by simp [hj])) ?_
              intro pIdx' heq
              obtain rfl : i = pIdx' := Option.some.inj heq
              exact fun hc => hir (hc ▸ hj)
          · rw [ATree.idxs]
            simp [hrmm]
          · intro j hj hjp
            rw [ATree.idxs] at hj
            simp only [List.mem_append, List.mem_cons, not_or] at hj
            refine hframe j hj.1 ?_
            intro pIdx' heq
            obtain rfl : i = pIdx' := Option.some.inj heq
            exact hj.2.1
          · intro pIdx0 pn0 heq hpn0
            subst heq
            obtain ⟨hpmem0, _⟩ := hctx pIdx0 rfl
            have hroot_rem : ((ATree.node (ATree.node ll li lk lp lr) i k p
                r).removeA q).rootIdx = some i := by
              rw [hremA]
              rfl
            rw [hroot_rem, patchChild_self]
            rw [hframe pIdx0
              (fun hc => hpmem0 (by rw [ATree.idxs]; simp [hc]))
              (fun pIdx' heq' => by
                obtain rfl : i = pIdx' := Option.some.inj heq'
                exact fun hc => hpmem0 (hc ▸ himem))]
            exact hpn0

/-- `remove` of a present key: returns `true` and the result is a
well-formed tree representing the abstract removal; exactly one slot is
freed (pushed on the free list) and the slot count does not change. -/
theorem remove_present {b : BinarySearchTree K P} {t : ATree K P}
    (hwf : WF b t) {q : K} (hmem : q ∈ t.keys) :
    ∃ b' : BinarySearchTree K P,
      b.remove q = .ok (b', true) ∧ WF b' (t.removeA q) ∧
      b'.storage.nodes.length = b.storage.nodes.length ∧
      ∃ rm, rm ∈ t.idxs ∧
        b'.storage.available = rm :: b.storage.available := by
  obtain ⟨hrepr, hnd, hbst⟩ := hwf
  cases t with
  | leaf => cases hmem
  | node l i' k p r =>
    have hroot : b.root = some i' := by
      simpa [ATree.rootIdx] using hrepr.rootIdx_eq
    rw [hroot] at hrepr
    have hsz := hrepr.size_le_length hnd
    obtain ⟨st', ro', hrun, hro1, _, hrep, hlen, ⟨rm, hrmm, hav⟩, _, _⟩ :=
      removeLoop_spec hrepr hnd hbst hmem
        (fun pIdx hcon => Option.noConfusion hcon) (fun _ => hroot)
        (f := b.storage.nodes.length + 1) (by omega)
    refine ⟨⟨st', ro'⟩, ?_, ⟨?_, ?_, ?_⟩, hlen, rm, hrmm, hav⟩
    · simp only [BinarySearchTree.remove.eq_def, hroot]
      exact hrun
    · rw [hro1 rfl]
      exact hrep
    · exact ((ATree.node l i' k p r).idxs_removeA_sublist q).nodup hnd
    · exact ATree.isBST_removeA hbst q
/-- Walking `remove`'s loop towards an absent key reads but never writes. -/
theorem removeLoop_absent {b : BinarySearchTree K P} {t : ATree K P} :
    ∀ {par : Option ℕ} {i : ℕ}, Represents b.storage par (some i) t →
    t.IsBST → ∀ {q : K}, q ∉ t.keys → ∀ {f : ℕ}, t.size < f →
    BinarySearchTree.removeLoop b q f i = .ok (b, false) := by
  induction t with
  | leaf =>
    intro par i h
    cases h
  | node l i' k p r ihl ihr =>
    intro par i h hbst q hkey f hf
    obtain ⟨rfl, hslot, hl, hr⟩ := h.node_inv
    cases f with
    | zero => omega
    | succ f =>
      rw [BinarySearchTree.removeLoop, view_of_slotIs hslot, bind_ok_eq]
      rcases lt_trichotomy k q with h1 | h1 | h1
      · have hkr : q ∉ r.keys := by
          intro hc
          apply hkey
          rw [ATree.keys]
          simp [hc]
        cases r with
        | leaf => simp only [Node.traverse_towards, if_pos h1, ATree.rootIdx]
        | node rl ri rk rp rr =>
          have hr2 : Represents b.storage (some i) (some ri)
              (ATree.node rl ri rk rp rr) := by
            simpa [ATree.rootIdx] using hr
          simp only [Node.traverse_towards, if_pos h1, ATree.rootIdx]
          exact ihr hr2 (by cases hbst with | node _ _ _ hr' => exact hr') hkr
            (by simp only [ATree.size] at hf ⊢; omega)
      · exact absurd (by rw [ATree.keys]; simp [h1]) hkey
      · have hkl : q ∉ l.keys := by
          intro hc
          apply hkey
          rw [ATree.keys]
          simp [hc]
        cases l with
        | leaf =>
          simp only [Node.traverse_towards, if_neg (asymm h1), if_pos h1,
            ATree.rootIdx]
        | node ll li lk lp lr =>
          have hl2 : Represents b.storage (some i) (some li)
              (ATree.node ll li lk lp lr) := by
            simpa [ATree.rootIdx] using hl
          simp only [Node.traverse_towards, if_neg (asymm h1), if_pos h1,
            ATree.rootIdx]
          exact ihl hl2 (by cases hbst with | node _ _ hl' _ => exact hl') hkl
            (by simp only [ATree.size] at hf ⊢; omega)

/-- `remove` of an absent key returns `false` and leaves the tree state
byte-for-byte unchanged. -/
theorem remove_absent {b : BinarySearchTree K P} {t : ATree K P}
    (hwf : WF b t) {q : K} (hkey : q ∉ t.keys) :
    b.remove q = .ok (b, false) := by
  obtain ⟨hrepr, hnd, hbst⟩ := hwf
  cases t with
  | leaf =>
    have hroot : b.root = none := by
      simpa [ATree.rootIdx] using hrepr.rootIdx_eq
    simp only [BinarySearchTree.remove.eq_def, hroot]
  | node l i' k p r =>
    have hroot : b.root = some i' := by
      simpa [ATree.rootIdx] using hrepr.rootIdx_eq
    rw [hroot] at hrepr
    have hsz := hrepr.size_le_length hnd
    simp only [BinarySearchTree.remove.eq_def, hroot]
    exact removeLoop_absent hrepr hbst hkey (by omega)

/-- Inside a represented `attachRightmost l r` (with `l` non-empty), the
rightmost node of `l` carries `r`'s root as its right child, and `r` hangs
below it. -/
theorem attach_slots {r : ATree K P} :
    ∀ (l : ATree K P) {st : Storage K P} {np : Option ℕ} {li : ℕ},
    Represents st np (some li) (l.attachRightmost r) → l ≠ .leaf →
    ∃ mnd : Node K P, slotIs st l.maxIdx mnd ∧ mnd.right_child = r.rootIdx ∧
      Represents st (some l.maxIdx) r.rootIdx r := by
  intro l
  induction l with
  | leaf =>
    intro st np li _ hc
    exact absurd rfl hc
  | node a j k p b _ ihb =>
    intro st np li h _
    rw [ATree.attachRightmost] at h
    obtain ⟨_, hslot, _, hb⟩ := h.node_inv
    cases b with
    | leaf =>
      have hLe : (ATree.leaf : ATree K P).attachRightmost r = r := rfl
      rw [hLe] at hslot hb
      rw [ATree.maxIdx_node_leaf]
      exact ⟨_, hslot, rfl, hb⟩
    | node b1 bj b2 b3 b4 =>
      rw [ATree.maxIdx_node_node _ _ _ _ (by simp)]
      rw [ATree.rootIdx_attachRightmost_of_ne _ _ (by simp)] at hb
      exact ihb hb (by simp)

/-- The concrete three-node state `bW` is well-formed and represents
`tW`. -/
theorem bW_wf : WF bW tW := by
  refine ⟨?_, by decide, ?_⟩
  · exact Represents.node none 0 2 20 _ _ rfl
      (Represents.node (some 0) 1 1 11 .leaf .leaf rfl (.leaf _) (.leaf _))
      (Represents.node (some 0) 2 3 13 .leaf .leaf rfl (.leaf _) (.leaf _))
  · exact .node (by decide) (by decide)
      (.node (by decide) (by decide) .leaf .leaf)
      (.node (by decide) (by decide) .leaf .leaf)

/-!
## The claims
-/

/-- C1: `alloc` on a non-empty free list returns the most recently freed
index and a view of that index yields the stored value, but it does NOT
leave the content and position of every other occupied slot unchanged.
From the reachable arena `⟨[none, some 7], [0]⟩` (allocate 9 and 7, then
free slot 0), `alloc 5` executes the shifting `Vec::insert` at index 0,
moving the occupied slot 1 to position 2: the old index 1 now points at an
empty slot and `view 1`, which yielded 7 before the allocation, is a fatal
dead-node failure afterwards. The frame part of the claim is violated by
the code. -/
theorem claim_C1 :
    c1Arena = .ok ⟨[none, some 7], [0]⟩ ∧
    Arena.alloc ⟨[none, some 7], [0]⟩ 5 = (⟨[some 5, none, some 7], []⟩, 0) ∧
    Arena.view ⟨[some 5, none, some 7], []⟩ 0 = .ok 5 ∧
    Arena.view ⟨[none, some 7], [0]⟩ 1 = .ok 7 ∧
    Arena.view ⟨[some 5, none, some 7], []⟩ 1 = .error (.dead 1) :=
  ⟨rfl, rfl, rfl, rfl, rfl⟩

/-- C2: arena reuse fails for N = 1 already. Inserting key 1 into an empty
tree uses one slot; removing it frees that slot; inserting key 2 pops the
freed index but then *inserts* a fresh slot there (shifting), so the
backing storage ends with two slots of which only one is occupied and the
free list is empty — the freed slot was not reused, storage grew beyond
what is needed and the empty slot is leaked. The claim is violated by the
code. -/
theorem claim_C2 :
    c2Run = .ok ⟨⟨[some ⟨⟨2, 20⟩, none, none, none⟩, none], []⟩, some 0⟩ ∧
    (⟨[some ⟨⟨2, 20⟩, none, none, none⟩, none], []⟩ :
      Storage ℤ ℤ).nodes.length = 2 ∧
    ((⟨[some ⟨⟨2, 20⟩, none, none, none⟩, none], []⟩ :
      Storage ℤ ℤ).nodes.countP fun s => s.isSome) = 1 :=
  ⟨rfl, rfl, rfl⟩

/-- C3: the fatal dead-node failure IS reachable by a plain sequence of
public operations on an initially empty tree: insert 2, 1, 3; remove 1;
insert 1 again; iterate. The re-insertion's `alloc` shifts the slot of the
node holding key 3, so iteration dereferences its stale index and aborts
with a dead-node failure. The claim is violated by the code. -/
theorem claim_C3 : c3Run = .error (.dead 2) := rfl

/-- C4: for every sequence of insertions into an initially empty tree,
the run succeeds and in-order iteration yields exactly the distinct
inserted keys in strictly ascending order. Confirmed: with no removals
the free list stays empty, so `alloc` only ever appends. -/
theorem claim_C4 (ops : List (K × P)) :
    ∃ (b' : BinarySearchTree K P) (t' : ATree K P),
      insertAll (BinarySearchTree.new K P) ops = .ok b' ∧
      b'.iterate = .ok t'.inorder ∧
      (t'.inorder.map Prod.fst).Sorted (· < ·) ∧
      (t'.inorder.map Prod.fst).Nodup ∧
      (∀ x, x ∈ t'.inorder.map Prod.fst ↔ x ∈ ops.map Prod.fst) := by
  have hwf0 : WF (BinarySearchTree.new K P) .leaf :=
    ⟨Represents.leaf none, List.nodup_nil, .leaf⟩
  obtain ⟨b', t', hrun, hwf', _, hkeys⟩ :=
    insertAll_spec ops (BinarySearchTree.new K P) .leaf hwf0 rfl
  have hsorted := ATree.keys_sorted_of_isBST hwf'.bst
  refine ⟨b', t', hrun, iterate_spec hwf', ?_, ?_, fun x => ?_⟩
  · rw [ATree.inorder_map_fst]
    exact hsorted
  · rw [ATree.inorder_map_fst]
    exact hsorted.nodup
  · rw [ATree.inorder_map_fst, hkeys x]
    simp [ATree.keys]

/-- C4, instantiated: inserting (2,20), (1,11), (3,13). -/
theorem claim_C4_witness :
    ∃ (b' : BinarySearchTree ℤ ℤ) (t' : ATree ℤ ℤ),
      insertAll (BinarySearchTree.new ℤ ℤ) [(2, 20), (1, 11), (3, 13)] =
        .ok b' ∧
      b'.iterate = .ok t'.inorder ∧
      (t'.inorder.map Prod.fst).Sorted (· < ·) ∧
      (t'.inorder.map Prod.fst).Nodup ∧
      (∀ x, x ∈ t'.inorder.map Prod.fst ↔
        x ∈ [(2, 20), (1, 11), (3, 13)].map Prod.fst) :=
  claim_C4 [(2, 20), (1, 11), (3, 13)]

/-- C5: removing a present key from a well-formed tree returns `true` and
the new in-order sequence is the old one with exactly the one matching
entry deleted, the remainder still strictly ascending and free of the
removed key. Confirmed. -/
theorem claim_C5 {b : BinarySearchTree K P} {t : ATree K P}
    (hwf : WF b t) {q : K} (hmem : q ∈ t.keys) :
    ∃ (b' : BinarySearchTree K P) (l1 l2 : List (K × P)) (x : P),
      b.iterate = .ok (l1 ++ (q, x) :: l2) ∧
      b.remove q = .ok (b', true) ∧
      b'.iterate = .ok (l1 ++ l2) ∧
      ((l1 ++ l2).map Prod.fst).Sorted (· < ·) ∧
      ∀ e ∈ l1 ++ l2, e.1 ≠ q := by
  obtain ⟨b', hrun, hwf', _, _⟩ := remove_present hwf hmem
  obtain ⟨l1, x, l2, hsplit, hsplit', hno1, hno2⟩ :=
    ATree.inorder_removeA_split hwf.bst hmem
  refine ⟨b', l1, l2, x, ?_, hrun, ?_, ?_, ?_⟩
  · rw [iterate_spec hwf, hsplit]
  · rw [iterate_spec hwf', hsplit']
  · have hs := ATree.keys_sorted_of_isBST hwf'.bst
    rw [← ATree.inorder_map_fst, hsplit'] at hs
    exact hs
  · intro e he
    rcases List.mem_append.1 he with h | h
    · exact hno1 e h
    · exact hno2 e h

/-- C5, instantiated on the three-node state `bW` with query 2 (the root,
a node with two children). -/
theorem claim_C5_witness :
    ∃ (b' : BinarySearchTree ℤ ℤ) (l1 l2 : List (ℤ × ℤ)) (x : ℤ),
      bW.iterate = .ok (l1 ++ (2, x) :: l2) ∧
      bW.remove 2 = .ok (b', true) ∧
      b'.iterate = .ok (l1 ++ l2) ∧
      ((l1 ++ l2).map Prod.fst).Sorted (· < ·) ∧
      ∀ e ∈ l1 ++ l2, e.1 ≠ 2 :=
  claim_C5 bW_wf (by decide)

/-- C6: inserting an already-present key returns `inserted = false`, the
returned iterator sits on the pre-existing node holding that key (its
`view` shows that node's content), and nothing is mutated: the returned
tree is the argument itself, so the traversal sequence is unchanged and no
node was allocated. Confirmed. -/
theorem claim_C6 {b : BinarySearchTree K P} {t : ATree K P}
    (hwf : WF b t) {key : K} (hmem : key ∈ t.keys) (payload : P) :
    ∃ (j : ℕ) (nd : Node K P),
      b.insert key payload = .ok (b, false, some j) ∧
      slotIs b.storage j nd ∧ nd.content.key = key ∧
      iterView b.storage (some j) = .ok (some nd.content) ∧
      b.iterate = .ok t.inorder := by
  obtain ⟨nd, hslot, hkey⟩ := findIdx_key hwf.repr hwf.bst hmem
  refine ⟨t.findIdx key, nd, insert_present hwf hmem payload, hslot, hkey,
    ?_, iterate_spec hwf⟩
  simp only [iterView, view_of_slotIs hslot, bind_ok_eq]

/-- C6, instantiated: re-inserting key 1 into `bW`. -/
theorem claim_C6_witness :
    ∃ (j : ℕ) (nd : Node ℤ ℤ),
      bW.insert 1 99 = .ok (bW, false, some j) ∧
      slotIs bW.storage j nd ∧ nd.content.key = 1 ∧
      iterView bW.storage (some j) = .ok (some nd.content) ∧
      bW.iterate = .ok tW.inorder :=
  claim_C6 bW_wf (by decide) 99

/-- C7: removing an absent key from a well-formed tree (the empty tree
included) returns `false` and performs no mutation at all — the resulting
state is the argument itself, arena slots, links, root and free list
identical. Confirmed. -/
theorem claim_C7 {b : BinarySearchTree K P} {t : ATree K P}
    (hwf : WF b t) {q : K} (hkey : q ∉ t.keys) :
    b.remove q = .ok (b, false) :=
  remove_absent hwf hkey

/-- C7, instantiated: removing the absent key 5 from `bW`. -/
theorem claim_C7_witness : bW.remove 5 = .ok (bW, false) :=
  claim_C7 bW_wf (by decide)

/-- C8: false on reachable states. From the state reached by insert 2, 1,
3; remove 1 — which does not contain key 10 — `insert 10 7` aborts with a
fatal dead-node failure instead of inserting: the earlier removal left a
freed index whose reuse by `alloc` shifts the slot of the key-3 node, so
the insertion walk's write to that node dereferences a stale index. The
round-trip property is violated by the code. -/
theorem claim_C8 : c8Run = .error (.dead 2) := rfl

/-- C9: `rebuild_tree` on a node with both children makes the left child
the replacement with the removed node's parent as its parent, attaches the
right subtree as the right child of the maximum node of the left subtree
(that node's slot now stores `right` as its right child, and the right
subtree's root records it as parent), and the result is an ordered tree
whose in-order sequence is left followed by right. Confirmed. -/
theorem claim_C9 {st : Storage K P} {l r : ATree K P}
    {oldpl oldpr np : Option ℕ}
    (hl : Represents st oldpl l.rootIdx l)
    (hr : Represents st oldpr r.rootIdx r)
    (hndl : l.idxs.Nodup) (hndr : r.idxs.Nodup)
    (hdisj : l.idxs.Disjoint r.idxs)
    (hlne : l ≠ .leaf) (hrne : r ≠ .leaf)
    (hbstl : l.IsBST) (hbstr : r.IsBST)
    (hlr : ∀ x ∈ l.keys, ∀ y ∈ r.keys, x < y) :
    ∃ st' : Storage K P,
      BinarySearchTree.rebuild_tree st l.rootIdx r.rootIdx np =
        .ok (st', l.rootIdx) ∧
      Represents st' np l.rootIdx (l.attachRightmost r) ∧
      (∃ mnd : Node K P, slotIs st' l.maxIdx mnd ∧
        mnd.right_child = r.rootIdx ∧
        Represents st' (some l.maxIdx) r.rootIdx r) ∧
      (l.attachRightmost r).IsBST ∧
      (l.attachRightmost r).inorder = l.inorder ++ r.inorder := by
  obtain ⟨st', hrun, hrep, _, _, _⟩ :=
    @rebuild_spec K P _ st l r oldpl oldpr np hl hr hndl hndr hdisj
  have hroot : (l.attachRightmost r).rootIdx = l.rootIdx :=
    ATree.rootIdx_attachRightmost_of_ne l r hlne
  rw [hroot] at hrun hrep
  obtain ⟨li, hli⟩ : ∃ li, l.rootIdx = some li := by
    cases l with
    | leaf => exact absurd rfl hlne
    | node a j k p b => exact ⟨j, rfl⟩
  have hrep' := hrep
  rw [hli] at hrep'
  obtain ⟨mnd, hm, hmr, hrsub⟩ := attach_slots l hrep' hlne
  exact ⟨st', hrun, hrep, ⟨mnd, hm, hmr, hrsub⟩,
    ATree.isBST_attachRightmost hbstl hbstr hlr,
    ATree.inorder_attachRightmost l r⟩

/-- C9, instantiated: splicing the root of `bW` out, `rebuild_tree`
grafts `rW` (key 3) under the maximum of `lW` (key 1). -/
theorem claim_C9_witness :
    ∃ st' : Storage ℤ ℤ,
      BinarySearchTree.rebuild_tree bW.storage lW.rootIdx rW.rootIdx none =
        .ok (st', lW.rootIdx) ∧
      Represents st' none lW.rootIdx (lW.attachRightmost rW) ∧
      (∃ mnd : Node ℤ ℤ, slotIs st' lW.maxIdx mnd ∧
        mnd.right_child = rW.rootIdx ∧
        Represents st' (some lW.maxIdx) rW.rootIdx rW) ∧
      (lW.attachRightmost rW).IsBST ∧
      (lW.attachRightmost rW).inorder = lW.inorder ++ rW.inorder :=
  claim_C9
    (Represents.node (some 0) 1 1 11 .leaf .leaf rfl (.leaf _) (.leaf _))
    (Represents.node (some 0) 2 3 13 .leaf .leaf rfl (.leaf _) (.leaf _))
    (by decide) (by decide)
    (by intro a ha hb; simp [lW, rW, ATree.idxs] at ha hb; omega)
    (by simp [lW]) (by simp [rW])
    (.node (by decide) (by decide) .leaf .leaf)
    (.node (by decide) (by decide) .leaf .leaf)
    (by decide)

/-- C10: `view`, `modify` and `remove` on an index at or past the end of
the backing vector all fail with the out-of-bounds failure, before any
check of slot occupancy — a failure distinct from the dead-node (empty
slot) one. Confirmed. -/
theorem claim_C10 {α : Type} (a : Arena α) (i : ℕ) (f : α → α)
    (h : a.nodes.length ≤ i) :
    a.view i = .error (.oob i) ∧
    a.modify i f = .error (.oob i) ∧
    a.remove i = .error (.oob i) ∧
    ∀ j : ℕ, Err.oob i ≠ Err.dead j := by
  have hn : ¬ i < a.nodes.length := by omega
  refine ⟨?_, ?_, ?_, fun j h' => Err.noConfusion h'⟩
  · simp [Arena.view, hn]
  · simp [Arena.modify, hn]
  · simp [Arena.remove, hn]

/-- C10, instantiated: index 0 on the empty arena. -/
theorem claim_C10_witness :
    (Arena.new ℤ).nodes.length ≤ 0 ∧
    ((Arena.new ℤ).view 0 = .error (.oob 0) ∧
     (Arena.new ℤ).modify 0 id = .error (.oob 0) ∧
     (Arena.new ℤ).remove 0 = .error (.oob 0) ∧
     ∀ j : ℕ, Err.oob 0 ≠ Err.dead j) :=
  ⟨by decide, claim_C10 (Arena.new ℤ) 0 id (by decide)⟩
